import Mathlib

/-!
# Verification of neomutt's IMAP modified UTF-7 codec and URL handling

Shallow embedding of `imap/utf7.c` (the functions `utf7_to_utf8` and
`utf8_to_utf7`) and of `url.c` (`url_check_scheme`, `url_parse`,
`url_pct_decode`, `url_pct_encode`, `url_tostring`).

Modelling conventions:
* C byte strings are `List Nat` (each element a byte value `0..255`);
  the length argument of the C functions is the list length.
* The C functions return a nul-terminated buffer plus a length
  `p - buf` that counts the terminating nul.  We model the result as
  `Option (List Nat)` holding the full written buffer, including the
  final `0`; `none` is the `NULL` (bail) return.
* The two top-level loops consume at least one input byte per
  iteration, so they are implemented structurally with a fuel
  parameter that the wrappers instantiate with `length + 1`.
* Machine integers: the C `int` locals `ch`, `b` stay in `0..2^22`,
  far from overflow, so they are `Nat`; the bit-room counter `k`
  ranges over a few negative values and is `Int`.
-/

namespace Neomutt

/-! ## Arithmetic helper lemmas for the bit-accumulator reasoning -/

/-- `a ||| b = a + b` when the set bits of `a` and `b` are separated by
position `n`. -/
theorem lor_eq_add {n : Nat} (a b : Nat) (ha : a % 2 ^ n = 0) (hb : b < 2 ^ n) :
    a ||| b = a + b := by
  have hab : a + b = 2 ^ n * (a / 2 ^ n) + b := by
    rw [Nat.mul_div_cancel' (Nat.dvd_of_mod_eq_zero ha)]
  apply Nat.eq_of_testBit_eq
  intro j
  rw [Nat.testBit_or, hab, Nat.testBit_mul_pow_two_add _ hb]
  by_cases hj : j < n
  · have : a.testBit j = (a % 2 ^ n).testBit j := by
      rw [Nat.testBit_mod_two_pow]
      simp [hj]
    simp [hj, this, ha]
  · have hbj : b.testBit j = false := by
      apply Nat.testBit_lt_two_pow
      exact lt_of_lt_of_le hb (Nat.pow_le_pow_right (by norm_num) (by omega))
    have : (a / 2 ^ n).testBit (j - n) = a.testBit j := by
      rw [← Nat.shiftRight_eq_div_pow, Nat.testBit_shiftRight]
      congr 1
      omega
    simp [hj, hbj, this]

/-! ## `imap/utf7.c`: lookup tables -/

/-- `Index64u`, the lookup table mapping ASCII bytes to modified-Base64
digit values (`-1` = not a digit).  Copied from `imap/utf7.c`. -/
def Index64u : List Int :=
  [-1,-1,-1,-1, -1,-1,-1,-1, -1,-1,-1,-1, -1,-1,-1,-1,
   -1,-1,-1,-1, -1,-1,-1,-1, -1,-1,-1,-1, -1,-1,-1,-1,
   -1,-1,-1,-1, -1,-1,-1,-1, -1,-1,-1,62, 63,-1,-1,-1,
   52,53,54,55, 56,57,58,59, 60,61,-1,-1, -1,-1,-1,-1,
   -1, 0, 1, 2,  3, 4, 5, 6,  7, 8, 9,10, 11,12,13,14,
   15,16,17,18, 19,20,21,22, 23,24,25,-1, -1,-1,-1,-1,
   -1,26,27,28, 29,30,31,32, 33,34,35,36, 37,38,39,40,
   41,42,43,44, 45,46,47,48, 49,50,51,-1, -1,-1,-1,-1]

/-- `B64Chars`, the modified-Base64 alphabet from `imap/utf7.c`,
given as byte values (`A-Za-z0-9+,`). -/
def B64Chars : List Nat :=
  [65, 66, 67, 68, 69, 70, 71, 72, 73, 74, 75, 76, 77,
   78, 79, 80, 81, 82, 83, 84, 85, 86, 87, 88, 89, 90,
   97, 98, 99, 100, 101, 102, 103, 104, 105, 106, 107, 108, 109,
   110, 111, 112, 113, 114, 115, 116, 117, 118, 119, 120, 121, 122,
   48, 49, 50, 51, 52, 53, 54, 55, 56, 57, 43, 44]

/-- Total lookup in `Index64u` (C array indexing; out-of-range reads
never happen on the guarded paths, the default is the "not a digit"
value). -/
def index64 (c : Nat) : Int := Index64u.getD c (-1)

/-- Total lookup in `B64Chars` (C array indexing; the index is always
`< 64` on the executed paths). -/
def b64char (i : Nat) : Nat := B64Chars.getD i 0

/-! ## `utf7_to_utf8`: the decoder -/

/-- The inner `for` loop of `utf7_to_utf8`: consume modified-Base64
digits from the front of the input, maintaining the accumulator `ch`
and the bit-room counter `k`, and emitting UTF-8 bytes for each
completed 16-bit unit.  Returns `none` on the "Printable US-ASCII"
bail; otherwise returns the emitted bytes, the final `ch` and `k`, and
the unconsumed input (starting at the first non-digit byte). -/
def decodeB64 (ch : Nat) (k : Int) : List Nat → Option (List Nat × Nat × Int × List Nat)
  | [] => some ([], ch, k, [])
  | c :: rest =>
    if c &&& 0x80 ≠ 0 ∨ index64 c = -1 then
      some ([], ch, k, c :: rest)
    else
      let b := (index64 c).toNat
      if 0 < k then
        decodeB64 (ch ||| (b <<< k.toNat)) (k - 6) rest
      else
        let ch2 := ch ||| (b >>> (-k).toNat)
        let ch' := (b <<< (16 + k).toNat) &&& 0xffff
        if ch2 < 0x80 then
          if 0x20 ≤ ch2 ∧ ch2 < 0x7f then
            none
          else
            (decodeB64 ch' (k + 10) rest).map (fun r => (ch2 :: r.1, r.2))
        else if ch2 < 0x800 then
          (decodeB64 ch' (k + 10) rest).map
            (fun r => ((0xc0 ||| (ch2 >>> 6)) :: (0x80 ||| (ch2 &&& 0x3f)) :: r.1, r.2))
        else
          (decodeB64 ch' (k + 10) rest).map
            (fun r => ((0xe0 ||| (ch2 >>> 12)) :: (0x80 ||| ((ch2 >>> 6) &&& 0x3f)) ::
                       (0x80 ||| (ch2 &&& 0x3f)) :: r.1, r.2))

/-- The Base64 shift-sequence branch of `utf7_to_utf8`'s outer loop
(from the inner `for` loop to the "Adjacent BASE64 sections" check):
run the inner loop, check "Non-zero or too many extra bits", check
"BASE64 not properly terminated", check "Adjacent BASE64 sections",
and continue with `next` on the input after the closing dash. -/
def utf7ShiftK (next : List Nat → Option (List Nat)) (rest : List Nat) :
    Option (List Nat) :=
  match decodeB64 0 10 rest with
  | none => none
  | some (out, ch, k, rest1) =>
    if ch ≠ 0 ∨ k < 6 then none
    else if rest1.head? = some 0x2d then
      if 2 ≤ rest1.tail.length ∧ rest1.tail.getD 0 0 = 0x26 ∧ rest1.tail.getD 1 0 ≠ 0x2d then
        none
      else
        (next rest1.tail).map (fun o => out ++ o)
    else none

/-- The outer loop of `utf7_to_utf8`.  The fuel argument is purely for
structural recursion; every iteration consumes at least one input
byte, so `length + 1` fuel always suffices. -/
def utf7Go : Nat → List Nat → Option (List Nat)
  | 0, _ => none
  | _ + 1, [] => some [0]
  | fuel + 1, c :: rest =>
    if c = 0x26 then
      if rest.head? = some 0x2d then (utf7Go fuel rest.tail).map (fun o => 0x26 :: o)
      else utf7ShiftK (utf7Go fuel) rest
    else if c < 0x20 ∨ 0x7f ≤ c then none
    else (utf7Go fuel rest).map (fun o => c :: o)

/-- `utf7_to_utf8` from `imap/utf7.c`: convert RFC 2060 modified UTF-7
to UTF-8.  The returned list is the written buffer including the
terminating nul; its length is the reported `u8len`. -/
def utf7_to_utf8 (u7 : List Nat) : Option (List Nat) :=
  utf7Go (u7.length + 1) u7

/-! ## `utf8_to_utf7`: the encoder -/

/-- The UTF-8 decoding step at the head of `utf8_to_utf7`'s `while`
loop: classify the lead byte `c`, consume the `n` continuation bytes
from `rest`, and perform the overlong check.  Returns the decoded code
point and the unconsumed input. -/
def utf8Step (c : Nat) (rest : List Nat) : Option (Nat × List Nat) :=
  let hd : Option (Nat × Nat) :=
    if c < 0x80 then some (c, 0)
    else if c < 0xc2 then none
    else if c < 0xe0 then some (c &&& 0x1f, 1)
    else if c < 0xf0 then some (c &&& 0x0f, 2)
    else if c < 0xf8 then some (c &&& 0x07, 3)
    else if c < 0xfc then some (c &&& 0x03, 4)
    else if c < 0xfe then some (c &&& 0x01, 5)
    else none
  match hd with
  | none => none
  | some (ch0, n) =>
    if n > rest.length then none
    else
      let cont := rest.take n
      if cont.all (fun x => x &&& 0xc0 = 0x80) then
        let ch := cont.foldl (fun a x => (a <<< 6) ||| (x &&& 0x3f)) ch0
        if 1 < n ∧ ch >>> (n * 5 + 1) = 0 then none
        else some (ch, rest.drop n)
      else none

/-- The `for (; k >= 0; k -= 6)` digit-emission loop of
`utf8_to_utf7`: emit one Base64 digit per 6 bits while room remains,
returning the digits and the final (negative) `k`. -/
def b64EmitLoop (ch : Nat) (k : Int) : List Nat × Int :=
  if 0 ≤ k then
    let r := b64EmitLoop ch (k - 6)
    (b64char ((ch >>> k.toNat) &&& 0x3f) :: r.1, r.2)
  else ([], k)
  termination_by (k + 6).toNat
  decreasing_by omega

/-- The `while (u8len)` loop of `utf8_to_utf7`, carrying the
`base64`/`b`/`k` shift-sequence state.  Fuelled like `utf7Go`; each
iteration consumes at least one byte. -/
def utf8Go : Nat → List Nat → Bool → Nat → Int → Option (List Nat)
  | 0, _, _, _, _ => none
  | _ + 1, [], base64, b, k =>
    some ((if base64 then (if 10 < k then [b64char b] else []) ++ [0x2d] else []) ++ [0])
  | fuel + 1, c :: rest, base64, b, k =>
    match utf8Step c rest with
    | none => none
    | some (ch, rest') =>
      if ch < 0x20 ∨ 0x7f ≤ ch then
        let b0 : Nat := if base64 then b else 0
        let k0 : Int := if base64 then k else 10
        let ch2 := if 0xffff < ch then 0xfffe else ch
        let d1 := b64char (b0 ||| (ch2 >>> k0.toNat))
        let el := b64EmitLoop ch2 (k0 - 6)
        (utf8Go fuel rest' true ((ch2 <<< (-el.2).toNat) &&& 0x3f) (el.2 + 16)).map
          (fun o => (if base64 then [] else [0x26]) ++ d1 :: el.1 ++ o)
      else
        let close := if base64 then (if 10 < k then [b64char b] else []) ++ [0x2d] else []
        let lit := if ch = 0x26 then [0x26, 0x2d] else [ch]
        (utf8Go fuel rest' false b k).map (fun o => close ++ lit ++ o)

/-- `utf8_to_utf7` from `imap/utf7.c`: convert UTF-8 to RFC 2060
modified UTF-7.  The returned list is the written buffer including the
terminating nul; its length is the reported `u7len`. -/
def utf8_to_utf7 (u8 : List Nat) : Option (List Nat) :=
  utf8Go (u8.length + 1) u8 false 0 0

/-! ## Basic facts about the decoder's Base64 section -/

/-- The bytes the decoder's inner loop treats as Base64 digits. -/
def isB64 (c : Nat) : Prop := ¬(c &&& 0x80 ≠ 0 ∨ index64 c = -1)

instance (c : Nat) : Decidable (isB64 c) := by unfold isB64; infer_instance

/-- The inner loop consumes exactly a run of Base64 digit bytes; the
returned rest is the original input with that run removed. -/
theorem decodeB64_consumed (l : List Nat) :
    ∀ ch k out ch' k' r, decodeB64 ch k l = some (out, ch', k', r) →
      ∃ ds, l = ds ++ r ∧ ∀ c ∈ ds, isB64 c := by
  induction l with
  | nil =>
    intro ch k out ch' k' r h
    simp only [decodeB64, Option.some.injEq, Prod.mk.injEq] at h
    exact ⟨[], by simp [h.2.2.2.symm], by simp⟩
  | cons c rest ih =>
    intro ch k out ch' k' r h
    simp only [decodeB64] at h
    by_cases hc : c &&& 0x80 ≠ 0 ∨ index64 c = -1
    · rw [if_pos hc] at h
      simp only [Option.some.injEq, Prod.mk.injEq] at h
      exact ⟨[], by simp [h.2.2.2.symm], by simp⟩
    · rw [if_neg hc] at h
      have hb64 : isB64 c := hc
      by_cases hk : (0 : Int) < k
      · rw [if_pos hk] at h
        obtain ⟨ds, hds, hall⟩ := ih _ _ _ _ _ _ h
        refine ⟨c :: ds, by simp [hds], ?_⟩
        intro x hx
        rcases List.mem_cons.mp hx with hx | hx
        · exact hx ▸ hb64
        · exact hall x hx
      · rw [if_neg hk] at h
        set ch2 := ch ||| ((index64 c).toNat >>> (-k).toNat) with hch2
        have hcont : ∀ o2 c2 k2 r2,
            decodeB64 (((index64 c).toNat <<< (16 + k).toNat) &&& 0xffff) (k + 10) rest
              = some (o2, c2, k2, r2) → r2 = r →
            ∃ ds, c :: rest = ds ++ r ∧ ∀ x ∈ ds, isB64 x := by
          intro o2 c2 k2 r2 ho hr
          obtain ⟨ds, hds, hall⟩ := ih _ _ _ _ _ _ ho
          refine ⟨c :: ds, by simp [hds, hr], ?_⟩
          intro x hx
          rcases List.mem_cons.mp hx with hx | hx
          · exact hx ▸ hb64
          · exact hall x hx
        by_cases h80 : ch2 < 0x80
        · rw [if_pos h80] at h
          by_cases hpr : 0x20 ≤ ch2 ∧ ch2 < 0x7f
          · rw [if_pos hpr] at h; simp at h
          · rw [if_neg hpr] at h
            rcases ho : decodeB64 (((index64 c).toNat <<< (16 + k).toNat) &&& 0xffff)
                (k + 10) rest with _ | ⟨o2, c2, k2, r2⟩
            · rw [ho] at h; simp at h
            · rw [ho] at h
              simp only [Option.map_some', Option.some.injEq, Prod.mk.injEq] at h
              exact hcont _ _ _ _ ho h.2.2.2
        · rw [if_neg h80] at h
          by_cases h800 : ch2 < 0x800
          all_goals {
            first
            | rw [if_pos h800] at h
            | rw [if_neg h800] at h
            rcases ho : decodeB64 (((index64 c).toNat <<< (16 + k).toNat) &&& 0xffff)
                (k + 10) rest with _ | ⟨o2, c2, k2, r2⟩
            · rw [ho] at h; simp at h
            · rw [ho] at h
              simp only [Option.map_some', Option.some.injEq, Prod.mk.injEq] at h
              exact hcont _ _ _ _ ho h.2.2.2 }

/-- The 16-bit units held in a Base64 payload, ignoring the printable
check: the same accumulator recursion as `decodeB64` but total.  This
makes "the payload yields a unit `u`" a statement independent of the
bail behaviour. -/
def b64Units (ch : Nat) (k : Int) : List Nat → List Nat
  | [] => []
  | c :: rest =>
    if c &&& 0x80 ≠ 0 ∨ index64 c = -1 then []
    else
      let b := (index64 c).toNat
      if 0 < k then b64Units (ch ||| (b <<< k.toNat)) (k - 6) rest
      else (ch ||| (b >>> (-k).toNat)) ::
           b64Units ((b <<< (16 + k).toNat) &&& 0xffff) (k + 10) rest

/-- If the Base64 payload yields a printable-ASCII 16-bit unit, the
inner loop bails ("Printable US-ASCII"). -/
theorem decodeB64_printable_none (l : List Nat) :
    ∀ ch k, (∃ u ∈ b64Units ch k l, 0x20 ≤ u ∧ u < 0x7f) →
      decodeB64 ch k l = none := by
  induction l with
  | nil => intro ch k h; simp [b64Units] at h
  | cons c rest ih =>
    intro ch k h
    simp only [b64Units] at h
    by_cases hc : c &&& 0x80 ≠ 0 ∨ index64 c = -1
    · rw [if_pos hc] at h; simp at h
    · rw [if_neg hc] at h
      simp only [decodeB64, if_neg hc]
      by_cases hk : (0 : Int) < k
      · rw [if_pos hk] at h
        rw [if_pos hk]
        exact ih _ _ h
      · rw [if_neg hk] at h
        rw [if_neg hk]
        set b := (index64 c).toNat
        set ch2 := ch ||| (b >>> (-k).toNat) with hch2
        obtain ⟨u, hu, hupr⟩ := h
        rcases List.mem_cons.mp hu with hu | hu
        · subst hu
          have h80 : ch2 < 0x80 := by omega
          rw [if_pos h80, if_pos (by omega : 0x20 ≤ ch2 ∧ ch2 < 0x7f)]
        · have hrec := ih ((b <<< (16 + k).toNat) &&& 0xffff) (k + 10) ⟨u, hu, hupr⟩
          by_cases h80 : ch2 < 0x80
          · rw [if_pos h80]
            by_cases hpr : 0x20 ≤ ch2 ∧ ch2 < 0x7f
            · rw [if_pos hpr]
            · rw [if_neg hpr, hrec]; rfl
          · rw [if_neg h80]
            by_cases h800 : ch2 < 0x800
            · rw [if_pos h800, hrec]; rfl
            · rw [if_neg h800, hrec]; rfl

/-! ## Local bail conditions of a shift sequence, and anchoring them
under an arbitrary prefix -/

/-- `shiftBails rest` says: when the decoder's outer loop meets `&`
followed by `rest`, it bails inside this very shift sequence, before
ever looking at later input.  This covers: the inner loop's printable
bail, the extra-bits check, the missing closing dash, and the
adjacent-sections check. -/
def shiftBails (rest : List Nat) : Prop :=
  rest.head? ≠ some 0x2d ∧
  ∀ out ch k rest1, decodeB64 0 10 rest = some (out, ch, k, rest1) →
    (ch ≠ 0 ∨ k < 6) ∨
    rest1.head? ≠ some 0x2d ∨
    (∃ r2, rest1 = 0x2d :: r2 ∧
      2 ≤ r2.length ∧ r2.getD 0 0 = 0x26 ∧ r2.getD 1 0 ≠ 0x2d)

/-- Splitting `pre ++ a :: tail = ds ++ rest1` when the anchor `a`
does not occur in `ds`: the anchor and its tail survive intact at the
end of `rest1`. -/
theorem append_anchor {α : Type} (a : α) :
    ∀ (ds pre tail rest1 : List α), pre ++ a :: tail = ds ++ rest1 →
      a ∉ ds → ∃ q, rest1 = q ++ a :: tail ∧ ds ++ q = pre := by
  intro ds
  induction ds with
  | nil =>
    intro pre tail rest1 h _
    exact ⟨pre, by simpa using h.symm, by simp⟩
  | cons d ds' ih =>
    intro pre tail rest1 h hmem
    rcases pre with _ | ⟨p, pre'⟩
    · simp only [List.nil_append, List.cons_append] at h
      have : a = d := by injection h
      exact absurd (this ▸ List.mem_cons_self d ds') hmem
    · simp only [List.cons_append] at h
      have hpd : p = d := by injection h
      have htl : pre' ++ a :: tail = ds' ++ rest1 := by injection h
      obtain ⟨q, hq1, hq2⟩ := ih pre' tail rest1 htl (fun hx => hmem (List.mem_cons_of_mem d hx))
      exact ⟨q, hq1, by simp [hpd, hq2]⟩

theorem utf7ShiftK_eq_none (next : List Nat → Option (List Nat)) (rest : List Nat)
    (hd : decodeB64 0 10 rest = none) : utf7ShiftK next rest = none := by
  unfold utf7ShiftK; rw [hd]

theorem utf7ShiftK_eq_some (next : List Nat → Option (List Nat)) (rest : List Nat)
    (out : List Nat) (ch : Nat) (k : Int) (rest1 : List Nat)
    (hd : decodeB64 0 10 rest = some (out, ch, k, rest1)) :
    utf7ShiftK next rest =
      if ch ≠ 0 ∨ k < 6 then none
      else if rest1.head? = some 0x2d then
        if 2 ≤ rest1.tail.length ∧ rest1.tail.getD 0 0 = 0x26 ∧
            rest1.tail.getD 1 0 ≠ 0x2d then
          none
        else
          (next rest1.tail).map (fun o => out ++ o)
      else none := by
  unfold utf7ShiftK; rw [hd]

theorem utf7Go_cons (fuel : Nat) (c : Nat) (rest : List Nat) :
    utf7Go (fuel + 1) (c :: rest) =
      if c = 0x26 then
        if rest.head? = some 0x2d then (utf7Go fuel rest.tail).map (fun o => 0x26 :: o)
        else utf7ShiftK (utf7Go fuel) rest
      else if c < 0x20 ∨ 0x7f ≤ c then none
      else (utf7Go fuel rest).map (fun o => c :: o) := rfl

/-- If a shift sequence bails locally, the whole decode fails, no
matter what precedes the `&` and what follows the sequence. -/
theorem utf7Go_poison : ∀ fuel pre rest, shiftBails rest →
    utf7Go fuel (pre ++ 0x26 :: rest) = none := by
  intro fuel
  induction fuel with
  | zero => intro pre rest _; rfl
  | succ fuel ih =>
    intro pre rest hb
    have hshiftK : ∀ next, utf7ShiftK next rest = none := by
      intro next
      rcases hd : decodeB64 0 10 rest with _ | ⟨out, ch, k, rest1⟩
      · exact utf7ShiftK_eq_none next rest hd
      · rw [utf7ShiftK_eq_some next rest out ch k rest1 hd]
        by_cases hgk : ch ≠ 0 ∨ k < 6
        · rw [if_pos hgk]
        · rw [if_neg hgk]
          rcases hb.2 out ch k rest1 hd with hg | hg | hg
          · exact absurd hg hgk
          · rw [if_neg hg]
          · obtain ⟨r2, hr2, hcond⟩ := hg
            subst hr2
            rw [if_pos (show ((0x2d :: r2).head? = some 0x2d) from rfl),
              if_pos (by simpa using hcond)]
    rcases pre with _ | ⟨c, pre'⟩
    · rw [List.nil_append, utf7Go_cons, if_pos rfl, if_neg hb.1]
      exact hshiftK _
    · rw [List.cons_append, utf7Go_cons]
      by_cases hc : c = 0x26
      · rw [if_pos hc]
        by_cases hesc : (pre' ++ 0x26 :: rest).head? = some 0x2d
        · rw [if_pos hesc]
          rcases pre' with _ | ⟨p0, pre''⟩
          · simp at hesc
          · have hp0 : p0 = 0x2d := by simpa using hesc
            subst hp0
            rw [show ((0x2d :: pre'') ++ 0x26 :: rest).tail = pre'' ++ 0x26 :: rest from rfl]
            rw [ih pre'' rest hb]
            rfl
        · rw [if_neg hesc]
          rcases hd : decodeB64 0 10 (pre' ++ 0x26 :: rest) with _ | ⟨out, ch, k, rest1⟩
          · exact utf7ShiftK_eq_none _ _ hd
          · rw [utf7ShiftK_eq_some _ _ _ _ _ _ hd]
            obtain ⟨ds, hds, hdig⟩ := decodeB64_consumed _ _ _ _ _ _ _ hd
            have hamp : 0x26 ∉ ds := fun hx => absurd (hdig _ hx) (by decide)
            obtain ⟨q, hq1, -⟩ := append_anchor 0x26 ds pre' rest rest1 hds hamp
            by_cases hgk : ch ≠ 0 ∨ k < 6
            · rw [if_pos hgk]
            · rw [if_neg hgk]
              by_cases hh : rest1.head? = some 0x2d
              · rw [if_pos hh]
                rcases q with _ | ⟨q0, qtail⟩
                · rw [hq1] at hh; simp at hh
                · have hq0 : q0 = 0x2d := by rw [hq1] at hh; simpa using hh
                  subst hq0
                  have htail : rest1.tail = qtail ++ 0x26 :: rest := by rw [hq1]; rfl
                  rw [htail]
                  by_cases hadj : 2 ≤ (qtail ++ 0x26 :: rest).length ∧
                      (qtail ++ 0x26 :: rest).getD 0 0 = 0x26 ∧
                      (qtail ++ 0x26 :: rest).getD 1 0 ≠ 0x2d
                  · rw [if_pos hadj]
                  · rw [if_neg hadj, ih qtail rest hb]
                    rfl
              · rw [if_neg hh]
      · rw [if_neg hc]
        by_cases hlit : c < 0x20 ∨ 0x7f ≤ c
        · rw [if_pos hlit]
        · rw [if_neg hlit, ih pre' rest hb]
          rfl

/-- On an all-digit run followed by a dash, the inner loop either
bails or stops exactly at the dash. -/
theorem decodeB64_stops_at_dash (ds : List Nat) : ∀ ch k r, (∀ c ∈ ds, isB64 c) →
    decodeB64 ch k (ds ++ 0x2d :: r) = none ∨
    ∃ out ch' k', decodeB64 ch k (ds ++ 0x2d :: r) = some (out, ch', k', 0x2d :: r) := by
  induction ds with
  | nil =>
    intro ch k r _
    right
    refine ⟨[], ch, k, ?_⟩
    simp only [List.nil_append, decodeB64]
    rw [if_pos (by decide)]
  | cons c ds' ih =>
    intro ch k r hdig
    have hc : isB64 c := hdig c (by simp)
    simp only [List.cons_append, decodeB64, List.append_eq]
    rw [if_neg hc]
    have hdig' : ∀ x ∈ ds', isB64 x := fun x hx => hdig x (List.mem_cons_of_mem c hx)
    by_cases hk : (0 : Int) < k
    · rw [if_pos hk]
      exact ih _ _ r hdig'
    · rw [if_neg hk]
      set b := (index64 c).toNat
      set ch2 := ch ||| (b >>> (-k).toNat) with hch2
      by_cases h80 : ch2 < 0x80
      · rw [if_pos h80]
        by_cases hpr : 0x20 ≤ ch2 ∧ ch2 < 0x7f
        · rw [if_pos hpr]; left; rfl
        · rw [if_neg hpr]
          rcases ih ((b <<< (16 + k).toNat) &&& 0xffff) (k + 10) r hdig' with hn | ⟨o, c', k', hs⟩
          · rw [hn]; left; rfl
          · rw [hs]; right; exact ⟨ch2 :: o, c', k', rfl⟩
      · rw [if_neg h80]
        by_cases h800 : ch2 < 0x800
        · rw [if_pos h800]
          rcases ih ((b <<< (16 + k).toNat) &&& 0xffff) (k + 10) r hdig' with hn | ⟨o, c', k', hs⟩
          · rw [hn]; left; rfl
          · rw [hs]; right
            exact ⟨(0xc0 ||| (ch2 >>> 6)) :: (0x80 ||| (ch2 &&& 0x3f)) :: o, c', k', rfl⟩
        · rw [if_neg h800]
          rcases ih ((b <<< (16 + k).toNat) &&& 0xffff) (k + 10) r hdig' with hn | ⟨o, c', k', hs⟩
          · rw [hn]; left; rfl
          · rw [hs]; right
            exact ⟨(0xe0 ||| (ch2 >>> 12)) :: (0x80 ||| ((ch2 >>> 6) &&& 0x3f)) ::
                   (0x80 ||| (ch2 &&& 0x3f)) :: o, c', k', rfl⟩

/-- C10: `utf7_to_utf8` accepts `"&AAA-"`, the shift sequence encoding
the 16-bit unit `0x0000`; the decode succeeds and produces the one
payload byte `0x00` followed by the terminating nul, with reported
length `2`.  So a successful decode can contain an interior nul byte. -/
theorem utf7_decode_nul_unit :
    utf7_to_utf8 [0x26, 0x41, 0x41, 0x41, 0x2d] = some [0x00, 0x00] ∧
    (utf7_to_utf8 [0x26, 0x41, 0x41, 0x41, 0x2d]).map List.length = some 2 := by
  decide

/-- C4: a wire input containing a shift sequence whose Base64 payload
yields a 16-bit unit in the printable range `0x20..0x7E` is rejected:
for any such sequence (`&` followed by `rest`, where the unit stream
of `rest`'s digit run contains a printable value), the whole decode
fails, whatever surrounds it. -/
theorem utf7_decode_rejects_printable (pre rest : List Nat)
    (hhit : ∃ u ∈ b64Units 0 10 rest, 0x20 ≤ u ∧ u < 0x7f) :
    utf7_to_utf8 (pre ++ 0x26 :: rest) = none := by
  have hnone := decodeB64_printable_none rest 0 10 hhit
  apply utf7Go_poison
  constructor
  · intro h
    rcases rest with _ | ⟨r0, rtail⟩
    · simp at h
    · have hr0 : r0 = 0x2d := by simpa using h
      subst hr0
      have : decodeB64 0 10 (0x2d :: rtail) = some ([], 0, 10, 0x2d :: rtail) := by
        simp only [decodeB64]
        rw [if_pos (by decide)]
      rw [this] at hnone
      simp at hnone
  · intro out ch k rest1 h
    rw [hnone] at h
    simp at h

/-- Witness for C4: the wire string `"A&ACY-"` (whose Base64 payload
decodes to `0x26`, the printable ampersand) fails to decode. -/
theorem utf7_decode_rejects_printable_witness :
    (∃ u ∈ b64Units 0 10 [0x41, 0x43, 0x59, 0x2d], 0x20 ≤ u ∧ u < 0x7f) ∧
    utf7_to_utf8 ([0x41] ++ 0x26 :: [0x41, 0x43, 0x59, 0x2d]) = none :=
  ⟨by decide, utf7_decode_rejects_printable [0x41] [0x41, 0x43, 0x59, 0x2d] (by decide)⟩

/-- C5: two directly adjacent shift sequences are rejected: a shift
sequence closed by `-` and immediately followed by `&` and a byte
other than `-` (so the `&` starts another Base64 section instead of
being the literal-ampersand escape `&-`) makes the whole decode fail,
whatever surrounds it. -/
theorem utf7_decode_rejects_adjacent (pre ds post : List Nat) (c : Nat)
    (hne : ds ≠ []) (hdig : ∀ x ∈ ds, isB64 x) (hc : c ≠ 0x2d) :
    utf7_to_utf8 (pre ++ 0x26 :: (ds ++ 0x2d :: 0x26 :: c :: post)) = none := by
  apply utf7Go_poison
  constructor
  · rcases ds with _ | ⟨d, ds'⟩
    · exact absurd rfl hne
    · have hd : d ≠ 0x2d := by
        intro h
        exact absurd (hdig d (by simp)) (by rw [h]; decide)
      simpa using hd
  · intro out ch k rest1 h
    rcases decodeB64_stops_at_dash ds 0 10 (0x26 :: c :: post) hdig with hn | ⟨o, c', k', hs⟩
    · rw [hn] at h; simp at h
    · rw [hs] at h
      simp only [Option.some.injEq, Prod.mk.injEq] at h
      right; right
      refine ⟨0x26 :: c :: post, h.2.2.2.symm, by simp, by simp, by simpa using hc⟩

/-- Witness for C5: `"&AMA-&AMA-"`, the concatenation of two
independently encoded shift sequences, fails to decode. -/
theorem utf7_decode_rejects_adjacent_witness :
    ([0x41, 0x4d, 0x41] : List Nat) ≠ [] ∧ (∀ x ∈ [0x41, 0x4d, 0x41], isB64 x) ∧
    (0x41 : Nat) ≠ 0x2d ∧
    utf7_to_utf8 ([] ++ 0x26 :: ([0x41, 0x4d, 0x41] ++ 0x2d :: 0x26 :: 0x41 :: [0x4d, 0x41, 0x2d]))
      = none :=
  ⟨by decide, by decide, by decide,
   utf7_decode_rejects_adjacent [] [0x41, 0x4d, 0x41] [0x4d, 0x41, 0x2d] 0x41
     (by decide) (by decide) (by decide)⟩

/-! ## Output-length bound of the decoder (claim C3) -/

/-- The values the bit-room counter `k` can take inside the inner
loop, starting from `10`. -/
def kReach (k : Int) : Prop :=
  k = 10 ∨ k = 4 ∨ k = -2 ∨ k = 8 ∨ k = 2 ∨ k = -4 ∨ k = 6 ∨ k = 0

/-- Potential function for the amortized output-length analysis of the
inner loop: at state `k`, `phi k = 9 * digits so far in the current
8-digit cycle - 8 * bytes emitted so far` in that cycle. -/
def phi : Int → Nat := fun k =>
  if k = 10 then 0 else if k = 4 then 9 else if k = -2 then 18
  else if k = 8 then 3 else if k = 2 then 12 else if k = -4 then 21
  else if k = 6 then 6 else 15

/-- Amortized bound for the inner loop: eight input digits produce at
most nine output bytes. -/
theorem decodeB64_bound (l : List Nat) : ∀ ch k out ch' k' rest,
    kReach k → decodeB64 ch k l = some (out, ch', k', rest) →
    kReach k' ∧ 8 * out.length + phi k' + 9 * rest.length ≤ 9 * l.length + phi k := by
  induction l with
  | nil =>
    intro ch k out ch' k' rest hk h
    simp only [decodeB64, Option.some.injEq, Prod.mk.injEq] at h
    obtain ⟨h1, h2, h3, h4⟩ := h
    subst h1; subst h3; subst h4
    exact ⟨hk, by simp⟩
  | cons c rest0 ih =>
    intro ch k out ch' k' rest hk h
    simp only [decodeB64] at h
    by_cases hc : c &&& 0x80 ≠ 0 ∨ index64 c = -1
    · rw [if_pos hc] at h
      simp only [Option.some.injEq, Prod.mk.injEq] at h
      obtain ⟨h1, h2, h3, h4⟩ := h
      subst h1; subst h3; subst h4
      refine ⟨hk, ?_⟩
      simp only [List.length_nil, List.length_cons]
      omega
    · rw [if_neg hc] at h
      by_cases hkpos : (0 : Int) < k
      · rw [if_pos hkpos] at h
        have hre : kReach (k - 6) := by unfold kReach at hk ⊢; omega
        obtain ⟨hre', hb⟩ := ih _ _ _ _ _ _ hre h
        refine ⟨hre', ?_⟩
        have hstep : phi (k - 6) ≤ 9 + phi k := by
          rcases hk with h' | h' | h' | h' | h' | h' | h' | h' <;> subst h' <;> norm_num [phi]
        simp only [List.length_cons]
        omega
      · rw [if_neg hkpos] at h
        have hre : kReach (k + 10) := by unfold kReach at hk ⊢; omega
        have hk3 : k = -2 ∨ k = -4 ∨ k = 0 := by unfold kReach at hk; omega
        have hstep : 8 * 3 + phi (k + 10) ≤ 9 + phi k := by
          rcases hk3 with h' | h' | h' <;> subst h' <;> norm_num [phi]
        set b := (index64 c).toNat
        set ch2 := ch ||| (b >>> (-k).toNat) with hch2
        by_cases h80 : ch2 < 0x80
        · rw [if_pos h80] at h
          by_cases hpr : 0x20 ≤ ch2 ∧ ch2 < 0x7f
          · rw [if_pos hpr] at h; simp at h
          · rw [if_neg hpr] at h
            obtain ⟨⟨o2, c2, k2, r2⟩, hrec, heq⟩ := Option.map_eq_some'.mp h
            simp only [Prod.mk.injEq] at heq
            obtain ⟨h1, h2, h3, h4⟩ := heq
            subst h1; subst h3; subst h4
            obtain ⟨hre', hb⟩ := ih _ _ _ _ _ _ hre hrec
            refine ⟨hre', ?_⟩
            simp only [List.length_cons]
            omega
        · rw [if_neg h80] at h
          by_cases h800 : ch2 < 0x800
          · rw [if_pos h800] at h
            obtain ⟨⟨o2, c2, k2, r2⟩, hrec, heq⟩ := Option.map_eq_some'.mp h
            simp only [Prod.mk.injEq] at heq
            obtain ⟨h1, h2, h3, h4⟩ := heq
            subst h1; subst h3; subst h4
            obtain ⟨hre', hb⟩ := ih _ _ _ _ _ _ hre hrec
            refine ⟨hre', ?_⟩
            simp only [List.length_cons]
            omega
          · rw [if_neg h800] at h
            obtain ⟨⟨o2, c2, k2, r2⟩, hrec, heq⟩ := Option.map_eq_some'.mp h
            simp only [Prod.mk.injEq] at heq
            obtain ⟨h1, h2, h3, h4⟩ := heq
            subst h1; subst h3; subst h4
            obtain ⟨hre', hb⟩ := ih _ _ _ _ _ _ hre hrec
            refine ⟨hre', ?_⟩
            simp only [List.length_cons]
            omega

/-- Whole-run bound for the decoder's outer loop: at most nine output
bytes (plus the trailing nul) per eight input bytes. -/
theorem utf7Go_bound : ∀ fuel l out, utf7Go fuel l = some out →
    8 * out.length ≤ 9 * l.length + 8 := by
  intro fuel
  induction fuel with
  | zero => intro l out h; simp [utf7Go] at h
  | succ fuel ih =>
    intro l out h
    rcases l with _ | ⟨c, rest⟩
    · simp only [utf7Go, Option.some.injEq] at h
      subst h
      simp
    · rw [utf7Go_cons] at h
      by_cases hc : c = 0x26
      · rw [if_pos hc] at h
        by_cases hesc : rest.head? = some 0x2d
        · rw [if_pos hesc] at h
          obtain ⟨o2, hrec, heq⟩ := Option.map_eq_some'.mp h
          have hb := ih _ _ hrec
          have hne : rest ≠ [] := by
            intro hr
            rw [hr] at hesc
            simp at hesc
          have : rest.tail.length + 1 = rest.length := by
            rcases rest with _ | ⟨x, xs⟩
            · exact absurd rfl hne
            · simp
          subst heq
          simp only [List.length_cons]
          omega
        · rw [if_neg hesc] at h
          rcases hd : decodeB64 0 10 rest with _ | ⟨ob, chb, kb, rest1⟩
          · rw [utf7ShiftK_eq_none _ _ hd] at h
            simp at h
          · rw [utf7ShiftK_eq_some _ _ _ _ _ _ hd] at h
            by_cases hg : chb ≠ 0 ∨ kb < 6
            · rw [if_pos hg] at h; simp at h
            · rw [if_neg hg] at h
              by_cases hh : rest1.head? = some 0x2d
              · rw [if_pos hh] at h
                by_cases hadj : 2 ≤ rest1.tail.length ∧ rest1.tail.getD 0 0 = 0x26 ∧
                    rest1.tail.getD 1 0 ≠ 0x2d
                · rw [if_pos hadj] at h; simp at h
                · rw [if_neg hadj] at h
                  obtain ⟨o2, hrec, heq⟩ := Option.map_eq_some'.mp h
                  have hb2 := ih _ _ hrec
                  obtain ⟨-, hbd⟩ := decodeB64_bound rest 0 10 _ _ _ _ (by left; rfl) hd
                  have hne : rest1 ≠ [] := by
                    intro hr
                    rw [hr] at hh
                    simp at hh
                  have htl : rest1.tail.length + 1 = rest1.length := by
                    rcases rest1 with _ | ⟨x, xs⟩
                    · exact absurd rfl hne
                    · simp
                  subst heq
                  simp only [List.length_append, List.length_cons, phi] at hbd ⊢
                  norm_num at hbd
                  omega
              · rw [if_neg hh] at h; simp at h
      · rw [if_neg hc] at h
        by_cases hlit : c < 0x20 ∨ 0x7f ≤ c
        · rw [if_pos hlit] at h; simp at h
        · rw [if_neg hlit] at h
          obtain ⟨o2, hrec, heq⟩ := Option.map_eq_some'.mp h
          have hb := ih _ _ hrec
          subst heq
          simp only [List.length_cons]
          omega

/-- C3: for every input accepted by `utf7_to_utf8`, the number of
output bytes written, including the terminating nul, never exceeds
`input_len + input_len / 8 + 1` — the size of the buffer the C code
allocates up front — so the pre-sized output buffer is never
overrun. -/
theorem utf7_decode_length_bound (w out : List Nat) (h : utf7_to_utf8 w = some out) :
    out.length ≤ w.length + w.length / 8 + 1 := by
  have hb := utf7Go_bound (w.length + 1) w out h
  omega

/-- Witness for C3 at the input `"AB"`. -/
theorem utf7_decode_length_bound_witness :
    utf7_to_utf8 [0x41, 0x42] = some [0x41, 0x42, 0] ∧
    ([0x41, 0x42, 0] : List Nat).length ≤
      ([0x41, 0x42] : List Nat).length + ([0x41, 0x42] : List Nat).length / 8 + 1 :=
  ⟨by decide, utf7_decode_length_bound [0x41, 0x42] [0x41, 0x42, 0] (by decide)⟩

/-! ## `url.c`: schemes, percent codec, parsing, formatting

Strings on this side are `List Char`.  The C code destructively cuts
`src` with nul bytes; the model returns the cut pieces instead. -/

/-- The `UrlScheme` enumeration from `url.h` (`USE_NOTMUCH` is not
set, matching the spec's scheme list). -/
inductive UrlScheme where
  | U_FILE | U_IMAP | U_IMAPS | U_POP | U_POPS | U_NNTP | U_NNTPS
  | U_MAILTO | U_SMTP | U_SMTPS | U_UNKNOWN
deriving DecidableEq, Repr

/-- The `UrlMap` table from `url.c`. -/
def UrlMap : List (List Char × UrlScheme) :=
  [(['f', 'i', 'l', 'e'], .U_FILE),
   (['i', 'm', 'a', 'p'], .U_IMAP),
   (['i', 'm', 'a', 'p', 's'], .U_IMAPS),
   (['p', 'o', 'p'], .U_POP),
   (['p', 'o', 'p', 's'], .U_POPS),
   (['n', 'e', 'w', 's'], .U_NNTP),
   (['s', 'n', 'e', 'w', 's'], .U_NNTPS),
   (['m', 'a', 'i', 'l', 't', 'o'], .U_MAILTO),
   (['s', 'm', 't', 'p'], .U_SMTP),
   (['s', 'm', 't', 'p', 's'], .U_SMTPS)]

/-- `STRING`, the stack-buffer size used throughout the code. -/
def STRING : Nat := 256

/-- Modelled from the spec: `mutt_map_get_value` (in `mutt/mapping.c`,
not among the sources) — "scheme-name is looked up ... via a static
name table".  The input has already been lowercased by the caller. -/
def mutt_map_get_value (name : List Char) : Option UrlScheme :=
  (UrlMap.find? (fun p => p.1 = name)).map Prod.snd

/-- Modelled from the spec: `mutt_map_get_name` (in `mutt/mapping.c`,
not among the sources) — the reverse lookup used by `url_tostring` to
emit the scheme name. -/
def mutt_map_get_name (s : UrlScheme) : Option (List Char) :=
  (UrlMap.find? (fun p => p.2 = s)).map Prod.fst

/-- ASCII `tolower` as applied by `url_check_scheme`. -/
def asciiTolower (c : Char) : Char :=
  if 'A' ≤ c ∧ c ≤ 'Z' then Char.ofNat (c.toNat + 32) else c

/-- `strchr`: split at the first occurrence of `c`, if any. -/
def strchrSplit (c : Char) : List Char → Option (List Char × List Char)
  | [] => none
  | x :: xs =>
    if x = c then some ([], xs)
    else (strchrSplit c xs).map (fun p => (x :: p.1, p.2))

/-- `strrchr`: split at the last occurrence of `c`, if any. -/
def strrchrSplit (c : Char) (l : List Char) : Option (List Char × List Char) :=
  (strchrSplit c l.reverse).map (fun p => (p.2.reverse, p.1.reverse))

/-- `url_check_scheme` from `url.c`: text before the first `:` is
copied (rejecting overlong schemes), lowercased, and looked up. -/
def url_check_scheme (s : List Char) : UrlScheme :=
  match strchrSplit ':' s with
  | none => .U_UNKNOWN
  | some (pre, _) =>
    if STRING - 1 ≤ pre.length then .U_UNKNOWN
    else
      match mutt_map_get_value (pre.map asciiTolower) with
      | none => .U_UNKNOWN
      | some v => v

/-- ASCII `isxdigit`. -/
def isxdigitA (c : Char) : Prop :=
  ('0' ≤ c ∧ c ≤ '9') ∨ ('a' ≤ c ∧ c ≤ 'f') ∨ ('A' ≤ c ∧ c ≤ 'F')

instance (c : Char) : Decidable (isxdigitA c) := by unfold isxdigitA; infer_instance

/-- `hexval`: the value of a hex digit. -/
def hexval (c : Char) : Nat :=
  if '0' ≤ c ∧ c ≤ '9' then c.toNat - '0'.toNat
  else if 'a' ≤ c ∧ c ≤ 'f' then c.toNat - 'a'.toNat + 10
  else if 'A' ≤ c ∧ c ≤ 'F' then c.toNat - 'A'.toNat + 10
  else 0

/-- `url_pct_decode` from `url.c`: decode `%XX` escapes in place;
a `%` not followed by two hex digits is an error. -/
def url_pct_decode : List Char → Option (List Char)
  | [] => some []
  | c :: rest =>
    if c = '%' then
      match rest with
      | h1 :: h2 :: rest2 =>
        if isxdigitA h1 ∧ isxdigitA h2 then
          (url_pct_decode rest2).map (fun d => Char.ofNat (hexval h1 * 16 + hexval h2) :: d)
        else none
      | _ => none
    else (url_pct_decode rest).map (fun d => c :: d)

/-- Modelled from the spec: `mutt_str_atoi` (in `mutt/string.c`, not
among the sources) — strict whole-string numeric parse; a "bad port
number" (any non-digit) is reported as an error, and the empty string
parses as `0`. -/
def mutt_str_atoi (s : List Char) : Option Int :=
  if s = [] then some 0
  else if s.all (fun c => '0' ≤ c ∧ c ≤ '9') then
    some (s.foldl (fun a c => a * 10 + ((c.toNat : Int) - ('0'.toNat : Int))) 0)
  else none

/-- The `struct Url` from `url.h`, with the query-string list
inlined. -/
structure Url where
  scheme : UrlScheme := .U_UNKNOWN
  user : Option (List Char) := none
  pass : Option (List Char) := none
  host : Option (List Char) := none
  port : Nat := 0
  path : Option (List Char) := none
  query : List (List Char × Option (List Char)) := []
deriving DecidableEq, Repr

/-- `parse_query_string` from `url.c`: split at `&`, then each segment
at its first `=`, percent-decoding names and values.  Fuelled; each
round consumes at least one byte. -/
def parse_query_string : Nat → List Char → Option (List (List Char × Option (List Char)))
  | _, [] => some []
  | 0, _ => none
  | fuel + 1, src =>
    let cut : List Char × Option (List Char) :=
      match strchrSplit '&' src with
      | some (seg, rest) => (seg, some rest)
      | none => (src, none)
    let qs : Option (List Char × Option (List Char)) :=
      match strchrSplit '=' cut.1 with
      | some (name, val) =>
        (url_pct_decode val).bind (fun v =>
          (url_pct_decode name).map (fun n => (n, some v)))
      | none => (url_pct_decode cut.1).map (fun n => (n, none))
    match qs with
    | none => none
    | some q =>
      match cut.2 with
      | none => some [q]
      | some rest => (parse_query_string fuel rest).map (fun t => q :: t)

/-- `url_parse` from `url.c`.  Returns `none` for the `-1` error
return.  The pointer surgery on `src` is modelled by the string
splits; the "no host but absolute path" fix-up re-prepends the `/`. -/
def url_parse (src : List Char) : Option Url :=
  let scheme := url_check_scheme src
  if scheme = .U_UNKNOWN then none
  else
    match strchrSplit ':' src with
    | none => none
    | some (_, afterColon) =>
      if afterColon.take 2 ≠ ['/', '/'] then
        (url_pct_decode afterColon).map (fun p => { scheme := scheme, path := some p })
      else
        let src2 := afterColon.drop 2
        let cutq : List Char × Option (List Char) :=
          if scheme = .U_MAILTO then
            match strrchrSplit '?' src2 with
            | some (before, after) => (before, some after)
            | none => (src2, none)
          else (src2, none)
        let queryRes : Option (List (List Char × Option (List Char))) :=
          match cutq.2 with
          | none => some []
          | some qs => parse_query_string (qs.length + 1) qs
        match queryRes with
        | none => none
        | some query =>
          let cutp : List Char × Option (List Char) :=
            match strchrSplit '/' cutq.1 with
            | some (a, p) => (a, some p)
            | none => (cutq.1, none)
          let pathRes : Option (Option (List Char)) :=
            match cutp.2 with
            | none => some none
            | some p => (url_pct_decode p).map some
          match pathRes with
          | none => none
          | some path0 =>
            let cutu : Option (List Char) × List Char :=
              match strrchrSplit '@' cutp.1 with
              | some (ui, hp) => (some ui, hp)
              | none => (none, cutp.1)
            let userRes : Option (Option (List Char) × Option (List Char)) :=
              match cutu.1 with
              | none => some (none, none)
              | some ui =>
                match strchrSplit ':' ui with
                | some (usr, pw) =>
                  (url_pct_decode pw).bind (fun pwd =>
                    (url_pct_decode usr).map (fun u => (some u, some pwd)))
                | none => (url_pct_decode ui).map (fun u => (some u, none))
            match userRes with
            | none => none
            | some (user, pass) =>
              let hostport := cutu.2
              let bracketSplit : Option (List Char × List Char) :=
                if hostport.head? = some '[' then strchrSplit ']' hostport.tail else none
              let cuth : List Char × List Char :=
                match bracketSplit with
                | some (inside, after) => (inside, after)
                | none => (hostport, hostport)
              let portRes : Option (Nat × List Char) :=
                match strchrSplit ':' cuth.2 with
                | some (beforePort, pstr) =>
                  match mutt_str_atoi pstr with
                  | none => none
                  | some num =>
                    if num < 0 ∨ 0xffff < num then none
                    else some (num.toNat,
                      if bracketSplit.isSome then cuth.1 else beforePort)
                | none => some (0, cuth.1)
              match portRes with
              | none => none
              | some (port, hostSrc) =>
                if hostSrc ≠ [] then
                  (url_pct_decode hostSrc).map (fun h =>
                    { scheme := scheme, user := user, pass := pass, host := some h,
                      port := port, path := path0, query := query })
                else
                  match path0 with
                  | some p =>
                    some { scheme := scheme, user := user, pass := pass, host := none,
                           port := port, path := some ('/' :: p), query := query }
                  | none =>
                    some { scheme := scheme, user := user, pass := pass, host := none,
                           port := port, path := none, query := query }

/-- The `alph` table of `url_pct_encode`: uppercase hex digits. -/
def hexUp (n : Nat) : Char :=
  if n < 10 then Char.ofNat ('0'.toNat + n) else Char.ofNat ('A'.toNat + n - 10)

/-- `url_pct_encode` from `url.c` for a buffer of size `l ≥ 1`: the
characters `/ : & %` become uppercase `%XX` triples.  As written in
the source, `l` is decremented once before the loop and never inside
it, so no truncation happens as long as `l - 1 ≠ 0` (and, for the
escapes, `l - 1 > 3`); with `l = 0` the C code underflows `l`, which
never happens at its call sites (`l` is always `STRING`). -/
def pctEncodeLoop (l : Nat) : List Char → List Char
  | [] => []
  | c :: rest =>
    if (c = '/' ∨ c = ':' ∨ c = '&' ∨ c = '%') ∧ 3 < l then
      '%' :: hexUp ((c.toNat >>> 4) &&& 0xf) :: hexUp (c.toNat &&& 0xf) :: pctEncodeLoop l rest
    else c :: pctEncodeLoop l rest

def url_pct_encode (l : Nat) (src : List Char) : List Char :=
  if l - 1 = 0 then [] else pctEncodeLoop (l - 1) src

/-- Modelled from the spec: the `flags` bits of `url_tostring`
(`url.h` is not among the sources) — "path-only mode" suppresses the
authority marker, "decode-password mode" includes the password. -/
structure TSFlags where
  path : Bool := false
  decode_passwd : Bool := false

/-- `snprintf(dest, cap, ...)`: at most `cap - 1` characters are
kept. -/
def strWrite (cap : Nat) (s : List Char) : List Char := s.take (cap - 1)

/-- `url_tostring` from `url.c`.  Returns the final contents of the
destination buffer together with the `int` return value; `none` is the
`-1` return for an unknown scheme.  Each `snprintf`/`mutt_str_strcat`
keeps at most `len - 1` characters of the remaining capacity, `len`
and `dest` being advanced after the scheme, user and host segments
exactly as in the source (the port segment and the path are written
with the same remaining capacity, the path being appended with
`mutt_str_strcat`). -/
def url_tostring (u : Url) (len : Nat) (fl : TSFlags) : Option (List Char × Int) :=
  if u.scheme = .U_UNKNOWN then none
  else
    let schemeName := (mutt_map_get_name u.scheme).getD []
    let s1 := strWrite len (schemeName ++ [':'])
    match u.host with
    | none =>
      match u.path with
      | some p => some ((s1 ++ p).take (len - 1), 0)
      | none => some (s1, 0)
    | some host =>
      let s2 := if ¬ fl.path then (s1 ++ ['/', '/']).take (len - 1) else s1
      let len2 := len - s2.length
      let userSeg : Option (List Char) :=
        match u.user with
        | some user =>
          if user ≠ [] ∨ ¬ fl.path then
            some (if fl.decode_passwd ∧ u.pass.isSome then
                url_pct_encode STRING user ++ ':' ::
                  url_pct_encode STRING (u.pass.getD []) ++ ['@']
              else url_pct_encode STRING user ++ ['@'])
          else none
        | none => none
      let w : List Char :=
        match userSeg with
        | some seg => strWrite len2 seg
        | none => []
      let s3 := s2 ++ w
      let len3 := len2 - w.length
      let hseg := if host.contains ':' then '[' :: host ++ [']'] else host
      let w4 := strWrite len3 hseg
      let s4 := s3 ++ w4
      let len4 := len3 - w4.length
      let pseg := if u.port ≠ 0 then ':' :: Nat.toDigits 10 u.port ++ ['/'] else ['/']
      let tail :=
        match u.path with
        | some p => (pseg ++ p).take (len4 - 1)
        | none => strWrite len4 pseg
      some (s4 ++ tail, 0)

/-! ## Helper lemmas about the string splits -/

theorem strchrSplit_append (c : Char) (pre post : List Char) (h : c ∉ pre) :
    strchrSplit c (pre ++ c :: post) = some (pre, post) := by
  induction pre with
  | nil => simp [strchrSplit]
  | cons x xs ih =>
    have hx : x ≠ c := fun hc => h (hc ▸ List.mem_cons_self x xs)
    simp only [List.cons_append, strchrSplit, List.append_eq, if_neg hx,
      ih (fun hc => h (List.mem_cons_of_mem x hc))]
    rfl

theorem strchrSplit_eq_none (c : Char) (l : List Char) (h : c ∉ l) :
    strchrSplit c l = none := by
  induction l with
  | nil => rfl
  | cons x xs ih =>
    have hx : x ≠ c := fun hc => h (hc ▸ List.mem_cons_self x xs)
    simp only [strchrSplit, if_neg hx, ih (fun hc => h (List.mem_cons_of_mem x hc))]
    rfl

theorem strrchrSplit_eq_none (c : Char) (l : List Char) (h : c ∉ l) :
    strrchrSplit c l = none := by
  unfold strrchrSplit
  rw [strchrSplit_eq_none c l.reverse (by simpa using h)]
  rfl

theorem url_pct_decode_id (l : List Char) (h : '%' ∉ l) :
    url_pct_decode l = some l := by
  induction l with
  | nil => rfl
  | cons x xs ih =>
    have hx : x ≠ '%' := fun hc => h (hc ▸ List.mem_cons_self x xs)
    unfold url_pct_decode
    rw [if_neg hx, ih (fun hc => h (List.mem_cons_of_mem x hc))]
    rfl

/-- C9: scheme recognition is case-insensitive: `url_check_scheme`
lowercases the text before the first `:` before looking it up, so two
inputs that differ only in the letter case of the scheme text are
assigned the same `UrlScheme`, and `url_parse` treats them
identically. -/
theorem url_scheme_case_insensitive (p q r : List Char)
    (hp : ':' ∉ p) (hq : ':' ∉ q)
    (hl : p.map asciiTolower = q.map asciiTolower) :
    url_check_scheme (p ++ ':' :: r) = url_check_scheme (q ++ ':' :: r) ∧
    url_parse (p ++ ':' :: r) = url_parse (q ++ ':' :: r) := by
  have hlen : p.length = q.length := by
    have := congrArg List.length hl
    simpa using this
  have hscheme : url_check_scheme (p ++ ':' :: r) = url_check_scheme (q ++ ':' :: r) := by
    unfold url_check_scheme
    rw [strchrSplit_append ':' p r hp, strchrSplit_append ':' q r hq]
    simp only [hlen, hl]
  refine ⟨hscheme, ?_⟩
  unfold url_parse
  rw [strchrSplit_append ':' p r hp, strchrSplit_append ':' q r hq, hscheme]

/-- Witness for C9: `"IMAP://h/"` and `"imap://h/"` receive the same
scheme and parse identically. -/
theorem url_scheme_case_insensitive_witness :
    url_check_scheme (['I', 'M', 'A', 'P'] ++ ':' :: ['/', '/', 'h', '/']) =
      url_check_scheme (['i', 'm', 'a', 'p'] ++ ':' :: ['/', '/', 'h', '/']) ∧
    url_parse (['I', 'M', 'A', 'P'] ++ ':' :: ['/', '/', 'h', '/']) =
      url_parse (['i', 'm', 'a', 'p'] ++ ':' :: ['/', '/', 'h', '/']) :=
  url_scheme_case_insensitive ['I', 'M', 'A', 'P'] ['i', 'm', 'a', 'p'] ['/', '/', 'h', '/']
    (by decide) (by decide) (by decide)

set_option maxHeartbeats 2000000 in
/-- C7 (amended): with a too-small destination buffer,
`url_tostring` truncates safely — it never keeps more than `len - 1`
characters — and still returns `0`; the would-be length is not
reported. -/
theorem url_tostring_trunc (u : Url) (len : Nat) (fl : TSFlags)
    (hs : u.scheme ≠ .U_UNKNOWN) (hlen : 1 ≤ len) :
    ∃ s, url_tostring u len fl = some (s, 0) ∧ s.length + 1 ≤ len := by
  unfold url_tostring
  rw [if_neg hs]
  rcases hh : u.host with _ | host
  · rcases hp : u.path with _ | p
    · refine ⟨_, rfl, ?_⟩
      simp only [strWrite, List.length_take]
      omega
    · refine ⟨_, rfl, ?_⟩
      simp only [List.length_take]
      omega
  · rcases hu : u.user with _ | user
    · rcases hp : u.path with _ | p <;>
        · refine ⟨_, rfl, ?_⟩
          dsimp only
          split_ifs <;>
            simp only [strWrite, List.length_append, List.length_take,
              List.length_nil, List.length_cons] <;>
              omega
    · rcases hp : u.path with _ | p <;>
        · refine ⟨_, rfl, ?_⟩
          dsimp only
          by_cases hcond : user ≠ [] ∨ ¬ fl.path = true
          · rw [if_pos hcond]
            dsimp only
            split_ifs <;>
              simp only [strWrite, List.length_append, List.length_take,
                List.length_nil, List.length_cons] <;>
                omega
          · rw [if_neg hcond]
            dsimp only
            split_ifs <;>
              simp only [strWrite, List.length_append, List.length_take,
                List.length_nil, List.length_cons] <;>
                omega

/-- Counterexample to C7 as stated: for the imap account with host
`h`, the full rendering is the nine characters `"imap://h/"`, but with
a 3-byte buffer `url_tostring` keeps only `"im"` and returns `0`, not
the count `9` that would have been written. -/
theorem url_tostring_trunc_counterexample :
    url_tostring { scheme := .U_IMAP, host := some ['h'] } 3 {} = some (['i', 'm'], 0) ∧
    url_tostring { scheme := .U_IMAP, host := some ['h'] } 100 {} =
      some (['i', 'm', 'a', 'p', ':', '/', '/', 'h', '/'], 0) ∧
    (['i', 'm', 'a', 'p', ':', '/', '/', 'h', '/'] : List Char).length = 9 ∧
    ¬ ((0 : Int) = 9) := by
  refine ⟨by decide, by decide, by decide, by decide⟩

/-- Witness for the amended C7 at the same concrete account and a
3-byte buffer. -/
theorem url_tostring_trunc_witness :
    ∃ s, url_tostring { scheme := .U_IMAP, host := some ['h'] } 3 {} = some (s, 0) ∧
      s.length + 1 ≤ 3 :=
  url_tostring_trunc { scheme := .U_IMAP, host := some ['h'] } 3 {} (by decide) (by decide)

/-! ## The truncated output is a prefix of the full rendering -/

theorem take_app_take (a b : List Char) (n : Nat) :
    (a.take n ++ b).take n = (a ++ b).take n := by
  rw [List.take_append_eq_append_take, List.take_append_eq_append_take, List.take_take]
  congr 1
  · congr 1
    omega
  · congr 1
    simp only [List.length_take]
    omega

theorem take_chain (Y seg : List Char) (len : Nat) :
    Y.take (len - 1) ++ seg.take (len - (Y.take (len - 1)).length - 1) =
    (Y ++ seg).take (len - 1) := by
  rw [List.take_append_eq_append_take]
  congr 1
  congr 1
  simp only [List.length_take]
  omega

theorem take_len_collapse (X seg : List Char) (len : Nat) :
    len - (X.take (len - 1)).length -
      (seg.take (len - (X.take (len - 1)).length - 1)).length =
    len - ((X ++ seg).take (len - 1)).length := by
  simp only [List.length_take, List.length_append]
  omega

/-- The untruncated text `url_tostring` is aiming for: scheme, `//`,
user(/password)`@`, bracketed-or-plain host, `:port/`, path — each
segment exactly as built by `url_tostring`. -/
def urlString (u : Url) (fl : TSFlags) : List Char :=
  let schemeName := (mutt_map_get_name u.scheme).getD []
  match u.host with
  | none => schemeName ++ [':'] ++ u.path.getD []
  | some host =>
    schemeName ++ [':'] ++ (if ¬ fl.path then ['/', '/'] else []) ++
      (match u.user with
       | some user =>
         if user ≠ [] ∨ ¬ fl.path then
           if fl.decode_passwd ∧ u.pass.isSome then
             url_pct_encode STRING user ++ ':' ::
               url_pct_encode STRING (u.pass.getD []) ++ ['@']
           else url_pct_encode STRING user ++ ['@']
         else []
       | none => []) ++
      (if host.contains ':' then '[' :: host ++ [']'] else host) ++
      (if u.port ≠ 0 then ':' :: Nat.toDigits 10 u.port ++ ['/'] else ['/']) ++
      u.path.getD []

set_option maxHeartbeats 2000000 in
/-- `url_tostring` writes exactly the first `len - 1` characters of
the full rendering `urlString` and returns `0`: truncation is a clean
prefix cut. -/
theorem url_tostring_take (u : Url) (len : Nat) (fl : TSFlags)
    (hs : u.scheme ≠ .U_UNKNOWN) :
    url_tostring u len fl = some ((urlString u fl).take (len - 1), 0) := by
  unfold url_tostring urlString
  rw [if_neg hs]
  rcases hh : u.host with _ | host
  · rcases hp : u.path with _ | p
    · simp [strWrite]
    · simp only [strWrite, Option.getD_some, take_app_take, List.append_assoc]
  · rcases hu : u.user with _ | user
    · rcases hp : u.path with _ | p <;>
        · dsimp only
          by_cases hfp : ¬ fl.path = true <;>
            simp only [strWrite, hfp, Bool.false_eq_true, ite_true, ite_false,
              if_true, if_false, not_false_eq_true, not_true, ite_not,
              Option.getD_some, Option.getD_none, List.append_nil, List.nil_append,
              List.length_nil, Nat.sub_zero,
              take_app_take, take_chain, take_len_collapse, List.append_assoc]
    · rcases hp : u.path with _ | p <;>
        · dsimp only
          by_cases hcond : user ≠ [] ∨ ¬ fl.path = true
          · rw [if_pos hcond]
            dsimp only
            by_cases hfp : ¬ fl.path = true
            · simp only [strWrite, hfp, Bool.false_eq_true, ite_true, ite_false,
                if_true, if_false, not_false_eq_true, not_true, ite_not, ne_eq,
                or_true, or_false, true_or, false_or, eq_self_iff_true,
                Option.getD_some, Option.getD_none, List.append_nil, List.nil_append,
                List.length_nil, Nat.sub_zero,
                take_app_take, take_chain, take_len_collapse, List.append_assoc]
            · have hfpt : fl.path = true := by simpa using hfp
              have hur : user ≠ [] := by
                rcases hcond with h | h
                · exact h
                · exact absurd hfpt h
              simp only [strWrite, hfpt, hur, Bool.false_eq_true, ite_true, ite_false,
                if_true, if_false, not_false_eq_true, not_true, ite_not, ne_eq,
                or_true, or_false, true_or, false_or, eq_self_iff_true,
                Option.getD_some, Option.getD_none, List.append_nil, List.nil_append,
                List.length_nil, Nat.sub_zero,
                take_app_take, take_chain, take_len_collapse, List.append_assoc]
          · rw [if_neg hcond]
            push_neg at hcond
            obtain ⟨hueq, hfpt⟩ := hcond
            subst hueq
            dsimp only
            simp only [strWrite, hfpt, Bool.false_eq_true, ite_true, ite_false,
              if_true, if_false, not_false_eq_true, not_true, ite_not, ne_eq,
              or_true, or_false, true_or, false_or, eq_self_iff_true,
              Option.getD_some, Option.getD_none, List.append_nil, List.nil_append,
              List.length_nil, Nat.sub_zero,
              take_app_take, take_chain, take_len_collapse, List.append_assoc]

/-- C8: IPv6 host bracketing.  First part: whenever the host string
contains a colon, `url_tostring` (given a large enough buffer) emits
the host wrapped in `[` and `]`.  Second part: `url_parse` of an
authority holding a bracketed host strips the brackets and stores the
host with its literal colons preserved — the colons inside the
brackets are not taken as a port separator (the port stays `0`). -/
theorem url_ipv6_bracketing :
    (∀ (u : Url) (host : List Char) (len : Nat) (fl : TSFlags),
      u.scheme ≠ .U_UNKNOWN → u.host = some host → ':' ∈ host →
      (urlString u fl).length + 1 ≤ len →
      ∃ l r, url_tostring u len fl = some (l ++ ('[' :: host ++ [']']) ++ r, 0)) ∧
    (∀ h : List Char, h ≠ [] → ']' ∉ h → '/' ∉ h → '@' ∉ h → '%' ∉ h →
      ∃ u, url_parse (['i', 'm', 'a', 'p'] ++ ':' :: '/' :: '/' :: '[' :: (h ++ [']', '/']))
          = some u ∧ u.host = some h ∧ u.port = 0) := by
  constructor
  · intro u host len fl hs hh hc hlen
    have ht := url_tostring_take u len fl hs
    rw [List.take_of_length_le (by omega)] at ht
    have hcont : host.contains ':' = true := List.elem_eq_true_of_mem hc
    refine ⟨(mutt_map_get_name u.scheme).getD [] ++ [':'] ++
        (if ¬ fl.path then ['/', '/'] else []) ++
        (match u.user with
         | some user =>
           if user ≠ [] ∨ ¬ fl.path then
             if fl.decode_passwd ∧ u.pass.isSome then
               url_pct_encode STRING user ++ ':' ::
                 url_pct_encode STRING (u.pass.getD []) ++ ['@']
             else url_pct_encode STRING user ++ ['@']
           else []
         | none => []),
      (if u.port ≠ 0 then ':' :: Nat.toDigits 10 u.port ++ ['/'] else ['/']) ++
        u.path.getD [], ?_⟩
    rw [ht]
    unfold urlString
    rw [hh]
    dsimp only
    rw [if_pos hcont]
    simp only [List.append_assoc]
  · intro h hne h1 h2 h3 h4
    have hscheme : url_check_scheme
        (['i', 'm', 'a', 'p'] ++ ':' :: '/' :: '/' :: '[' :: (h ++ [']', '/'])) = .U_IMAP := by
      unfold url_check_scheme
      rw [strchrSplit_append ':' ['i', 'm', 'a', 'p'] _ (by decide)]
      dsimp only
      decide
    have e1 : strchrSplit ':'
        (['i', 'm', 'a', 'p'] ++ ':' :: '/' :: '/' :: '[' :: (h ++ [']', '/']))
        = some (['i', 'm', 'a', 'p'], '/' :: '/' :: '[' :: (h ++ [']', '/'])) :=
      strchrSplit_append ':' ['i', 'm', 'a', 'p'] _ (by decide)
    have hnotsl : '/' ∉ '[' :: (h ++ [']']) := by
      intro hm
      rcases List.mem_cons.mp hm with e | e
      · exact absurd e (by decide)
      · rcases List.mem_append.mp e with e' | e'
        · exact h2 e'
        · exact absurd (List.mem_singleton.mp e') (by decide)
    have e2 : strchrSplit '/' ('[' :: (h ++ [']', '/']))
        = some ('[' :: (h ++ [']']), []) := by
      rw [show '[' :: (h ++ [']', '/']) = ('[' :: (h ++ [']'])) ++ '/' :: [] by simp]
      exact strchrSplit_append '/' _ _ hnotsl
    have e3 : strrchrSplit '@' ('[' :: (h ++ [']'])) = none := by
      apply strrchrSplit_eq_none
      intro hm
      rcases List.mem_cons.mp hm with e | e
      · exact absurd e (by decide)
      · rcases List.mem_append.mp e with e' | e'
        · exact h3 e'
        · exact absurd (List.mem_singleton.mp e') (by decide)
    have e4 : strchrSplit ']' (h ++ [']']) = some (h, []) := by
      rw [show h ++ [']'] = h ++ ']' :: [] from rfl]
      exact strchrSplit_append ']' h [] h1
    have e6 : url_pct_decode h = some h := url_pct_decode_id h h4
    refine ⟨{ scheme := .U_IMAP, host := some h, port := 0, path := some [] }, ?_, rfl, rfl⟩
    unfold url_parse
    rw [hscheme, if_neg (by decide : ¬(UrlScheme.U_IMAP = .U_UNKNOWN)), e1]
    dsimp only
    rw [if_neg (by simp :
      ¬(List.take 2 ('/' :: '/' :: '[' :: (h ++ [']', '/'])) ≠ ['/', '/']))]
    dsimp only [List.drop]
    rw [if_neg (by decide : ¬(UrlScheme.U_IMAP = .U_MAILTO))]
    dsimp only
    rw [e2]
    dsimp only
    rw [show url_pct_decode ([] : List Char) = some [] from rfl]
    rw [e3]
    dsimp only
    rw [if_pos (show (('[' :: (h ++ [']'])).head? = some '[') from rfl),
      List.tail_cons, e4]
    dsimp only
    rw [show strchrSplit ':' ([] : List Char) = none from rfl]
    dsimp only
    rw [show (Option.map some (some ([] : List Char))) = some (some []) from rfl]
    dsimp only
    rw [if_pos hne, e6]
    rfl

/-- Witness for C8 at the IPv6 loopback host `"::1"`. -/
theorem url_ipv6_bracketing_witness :
    (∃ l r, url_tostring { scheme := .U_IMAP, host := some [':', ':', '1'] } 20 {}
      = some (l ++ ('[' :: [':', ':', '1'] ++ [']']) ++ r, 0)) ∧
    (∃ u, url_parse (['i', 'm', 'a', 'p'] ++ ':' :: '/' :: '/' :: '[' ::
        ([':', ':', '1'] ++ [']', '/'])) = some u ∧
      u.host = some [':', ':', '1'] ∧ u.port = 0) :=
  ⟨url_ipv6_bracketing.1 { scheme := .U_IMAP, host := some [':', ':', '1'] }
      [':', ':', '1'] 20 {} (by decide) rfl (by decide) (by decide),
   url_ipv6_bracketing.2 [':', ':', '1'] (by decide) (by decide) (by decide)
      (by decide) (by decide)⟩

/-! ## The encoder viewed at the code-point level -/

/-- Mask by a contiguous bit field: `x &&& (2^i*(2^j-1))` extracts bits
`i .. i+j-1` of `x`. -/
theorem and_mask_field (x i j : Nat) :
    x &&& 2 ^ i * (2 ^ j - 1) = x / 2 ^ i % 2 ^ j * 2 ^ i := by
  apply Nat.eq_of_testBit_eq
  intro n
  rw [Nat.testBit_and]
  by_cases hn : n < i
  · have h1 : (2 ^ i * (2 ^ j - 1)).testBit n = false := by
      rw [Nat.testBit_mul_pow_two]
      simp [Nat.not_le.mpr hn]
    have h2 : (x / 2 ^ i % 2 ^ j * 2 ^ i).testBit n = false := by
      rw [Nat.mul_comm, Nat.testBit_mul_pow_two]
      simp [Nat.not_le.mpr hn]
    rw [h1, h2, Bool.and_false]
  · push_neg at hn
    obtain ⟨m, rfl⟩ : ∃ m, n = i + m := ⟨n - i, (Nat.add_sub_cancel' hn).symm⟩
    have hx : x.testBit (i + m) = (x / 2 ^ i).testBit m := by
      rw [← Nat.shiftRight_eq_div_pow, Nat.testBit_shiftRight]
    rw [Nat.testBit_mul_pow_two, Nat.mul_comm, Nat.testBit_mul_pow_two,
        Nat.testBit_mod_two_pow, Nat.testBit_two_pow_sub_one]
    simp [Nat.le_add_right, Nat.add_sub_cancel_left, hx, Bool.and_comm]

/-- Unfolding `b64EmitLoop` when the loop is done (`k < 0`). -/
theorem b64EmitLoop_neg (ch : Nat) (k : Int) (h : k < 0) : b64EmitLoop ch k = ([], k) := by
  rw [b64EmitLoop]
  exact if_neg (by omega)

/-- Unfolding one iteration of `b64EmitLoop` (`k ≥ 0`). -/
theorem b64EmitLoop_nonneg (ch : Nat) (k : Int) (h : 0 ≤ k) :
    b64EmitLoop ch k =
      (b64char ((ch >>> k.toNat) &&& 0x3f) :: (b64EmitLoop ch (k - 6)).1,
        (b64EmitLoop ch (k - 6)).2) := by
  conv_lhs => rw [b64EmitLoop]
  rw [if_pos h]

/-- `b64EmitLoop` after a `k = 10` digit: one more digit, `k` ends at `-2`. -/
theorem b64EmitLoop_four (ch : Nat) :
    b64EmitLoop ch 4 = ([b64char ((ch >>> 4) &&& 0x3f)], -2) := by
  rw [b64EmitLoop_nonneg ch 4 (by norm_num), b64EmitLoop_neg ch (4 - 6) (by norm_num)]
  norm_num
  try exact ⟨rfl, rfl⟩
  try rfl

/-- `b64EmitLoop` after a `k = 14` digit: two more digits, `k` ends at `-4`. -/
theorem b64EmitLoop_eight (ch : Nat) :
    b64EmitLoop ch 8 =
      ([b64char ((ch >>> 8) &&& 0x3f), b64char ((ch >>> 2) &&& 0x3f)], -4) := by
  rw [b64EmitLoop_nonneg ch 8 (by norm_num), b64EmitLoop_nonneg ch (8 - 6) (by norm_num),
    b64EmitLoop_neg ch (8 - 6 - 6) (by norm_num)]
  norm_num
  try exact ⟨rfl, rfl⟩
  try rfl

/-- `b64EmitLoop` after a `k = 12` digit: two more digits, `k` ends at `-6`. -/
theorem b64EmitLoop_six (ch : Nat) :
    b64EmitLoop ch 6 = ([b64char ((ch >>> 6) &&& 0x3f), b64char (ch &&& 0x3f)], -6) := by
  rw [b64EmitLoop_nonneg ch 6 (by norm_num), b64EmitLoop_nonneg ch (6 - 6) (by norm_num),
    b64EmitLoop_neg ch (6 - 6 - 6) (by norm_num)]
  norm_num [Nat.shiftRight_zero]
  try exact ⟨rfl, rfl⟩
  try rfl

/-- The digits `utf8Go` emits for one 16-bit unit `u` in the Base64
branch, together with the updated carry `b` and bit-room `k`: the
first digit completes the pending carry, `b64EmitLoop` drains the
remaining full 6-bit groups, and the leftover low bits of `u` become
the new carry. -/
def encUnit (b : Nat) (k : Int) (u : Nat) : List Nat × Nat × Int :=
  let d1 := b64char (b ||| (u >>> k.toNat))
  let el := b64EmitLoop u (k - 6)
  (d1 :: el.1, (u <<< (-el.2).toNat) &&& 0x3f, el.2 + 16)

/-- `encUnit` iterated over a run of 16-bit units. -/
def encUnits (b : Nat) (k : Int) : List Nat → List Nat × Nat × Int
  | [] => ([], b, k)
  | u :: us =>
    let e := encUnit b k u
    let r := encUnits e.2.1 e.2.2 us
    (e.1 ++ r.1, r.2)

/-- The UTF-8 parsing part of `utf8_to_utf7`'s loop in isolation: the
code-point sequence read by iterating the lead-byte ladder and the
continuation-byte folds (the first half of each `while` iteration). -/
def utf8Parse : Nat → List Nat → Option (List Nat)
  | 0, _ => none
  | _ + 1, [] => some []
  | fuel + 1, c :: rest =>
    match utf8Step c rest with
    | none => none
    | some (ch, rest') => (utf8Parse fuel rest').map (fun cps => ch :: cps)

/-- The emission part of `utf8_to_utf7`'s loop in isolation: what the
encoder writes for an already-parsed code-point sequence.  This is
total: after UTF-8 parsing the encoder has no failure paths. -/
def encGo : List Nat → Bool → Nat → Int → List Nat
  | [], base64, b, k =>
    (if base64 then (if 10 < k then [b64char b] else []) ++ [0x2d] else []) ++ [0]
  | ch :: rest, base64, b, k =>
    if ch < 0x20 ∨ 0x7f ≤ ch then
      let b0 : Nat := if base64 then b else 0
      let k0 : Int := if base64 then k else 10
      let ch2 := if 0xffff < ch then 0xfffe else ch
      let d1 := b64char (b0 ||| (ch2 >>> k0.toNat))
      let el := b64EmitLoop ch2 (k0 - 6)
      (if base64 then [] else [0x26]) ++ d1 :: el.1 ++
        encGo rest true ((ch2 <<< (-el.2).toNat) &&& 0x3f) (el.2 + 16)
    else
      let close := if base64 then (if 10 < k then [b64char b] else []) ++ [0x2d] else []
      let lit := if ch = 0x26 then [0x26, 0x2d] else [ch]
      close ++ lit ++ encGo rest false b k

/-- `utf8Go` factors through UTF-8 parsing: the loop equals "parse the
code points, then emit".  In particular `utf8_to_utf7` fails exactly
when the input is not valid UTF-8, and its output depends on the input
only through the parsed code points. -/
theorem utf8Go_factor : ∀ fuel l base64 b k,
    utf8Go fuel l base64 b k = (utf8Parse fuel l).map (fun cps => encGo cps base64 b k) := by
  intro fuel
  induction fuel with
  | zero => intro l base64 b k; rfl
  | succ fuel ih =>
    intro l base64 b k
    cases l with
    | nil => rfl
    | cons c rest =>
      show utf8Go (fuel + 1) (c :: rest) base64 b k = _
      simp only [utf8Go, utf8Parse]
      rcases hs : utf8Step c rest with _ | ⟨ch, rest'⟩
      · rfl
      · dsimp only
        by_cases hlit : ch < 0x20 ∨ 0x7f ≤ ch
        · rw [if_pos hlit, ih]
          simp only [Option.map_map]
          congr 1
          funext cps
          simp only [Function.comp_apply, encGo]
          rw [if_pos hlit]
        · rw [if_neg hlit, ih]
          simp only [Option.map_map]
          congr 1
          funext cps
          simp only [Function.comp_apply, encGo]
          rw [if_neg hlit]

/-- The canonical UTF-8 serialization of a code point (1 to 6 bytes,
the classic pre-RFC 3629 forms accepted by `utf8_to_utf7`'s ladder).
For code points below `0x10000` the byte expressions coincide with the
ones `utf7_to_utf8` emits. -/
def serializeUnit (cp : Nat) : List Nat :=
  if cp < 0x80 then [cp]
  else if cp < 0x800 then [0xc0 ||| (cp >>> 6), 0x80 ||| (cp &&& 0x3f)]
  else if cp < 0x10000 then
    [0xe0 ||| (cp >>> 12), 0x80 ||| ((cp >>> 6) &&& 0x3f), 0x80 ||| (cp &&& 0x3f)]
  else if cp < 0x200000 then
    [0xf0 ||| (cp >>> 18), 0x80 ||| ((cp >>> 12) &&& 0x3f),
     0x80 ||| ((cp >>> 6) &&& 0x3f), 0x80 ||| (cp &&& 0x3f)]
  else if cp < 0x4000000 then
    [0xf8 ||| (cp >>> 24), 0x80 ||| ((cp >>> 18) &&& 0x3f), 0x80 ||| ((cp >>> 12) &&& 0x3f),
     0x80 ||| ((cp >>> 6) &&& 0x3f), 0x80 ||| (cp &&& 0x3f)]
  else
    [0xfc ||| (cp >>> 30), 0x80 ||| ((cp >>> 24) &&& 0x3f), 0x80 ||| ((cp >>> 18) &&& 0x3f),
     0x80 ||| ((cp >>> 12) &&& 0x3f), 0x80 ||| ((cp >>> 6) &&& 0x3f), 0x80 ||| (cp &&& 0x3f)]

/-- Low-mask instances of `Nat.and_pow_two_sub_one_eq_mod`. -/
theorem and_mod64 (x : Nat) : x &&& 0x3f = x % 64 := by
  have h := Nat.and_pow_two_sub_one_eq_mod x 6
  norm_num at h
  exact h

theorem and_mod32 (x : Nat) : x &&& 0x1f = x % 32 := by
  have h := Nat.and_pow_two_sub_one_eq_mod x 5
  norm_num at h
  exact h

theorem and_mod16 (x : Nat) : x &&& 0x0f = x % 16 := by
  have h := Nat.and_pow_two_sub_one_eq_mod x 4
  norm_num at h
  exact h

theorem and_mod8 (x : Nat) : x &&& 0x07 = x % 8 := by
  have h := Nat.and_pow_two_sub_one_eq_mod x 3
  norm_num at h
  exact h

theorem and_mod4 (x : Nat) : x &&& 0x03 = x % 4 := by
  have h := Nat.and_pow_two_sub_one_eq_mod x 2
  norm_num at h
  exact h

theorem and_mod2 (x : Nat) : x &&& 0x01 = x % 2 := Nat.and_one_is_mod x

theorem and_mod65536 (x : Nat) : x &&& 0xffff = x % 65536 := by
  have h := Nat.and_pow_two_sub_one_eq_mod x 16
  norm_num at h
  exact h

/-- A UTF-8 continuation byte passes the `0xc0`-mask check. -/
theorem cont_check (m : Nat) (hm : m < 64) : (128 + m) &&& 0xc0 = 0x80 := by
  have h := and_mask_field (128 + m) 6 2
  norm_num at h
  rw [h]
  omega

/-- Assembling a UTF-8 continuation byte. -/
theorem cont_val (m : Nat) (hm : m < 64) : (0x80 : Nat) ||| m = 128 + m :=
  lor_eq_add (n := 7) 128 m (by norm_num) (by omega)

/-- One step of the encoder's continuation-byte fold. -/
theorem fold_step (a m : Nat) (hm : m < 64) :
    (a <<< 6) ||| ((128 + m) &&& 0x3f) = a * 64 + m := by
  rw [and_mod64]
  have hm' : (128 + m) % 64 = m := by omega
  rw [hm', Nat.shiftLeft_eq]
  norm_num
  exact lor_eq_add (n := 6) (a * 64) m (by simp [Nat.mul_mod_left]) (by omega)

/-- `serializeUnit` inverts through `utf8Step`: the serialized bytes of
any code point the encoder's ladder accepts parse back to that code
point, leaving the rest of the input untouched. -/
theorem utf8Step_serialize (cp : Nat) (hcp : cp < 0x80000000) (rest : List Nat) :
    ∃ c cs, serializeUnit cp = c :: cs ∧ utf8Step c (cs ++ rest) = some (cp, rest) := by
  by_cases h1 : cp < 0x80
  · refine ⟨cp, [], by rw [serializeUnit, if_pos h1], ?_⟩
    simp only [utf8Step]
    rw [if_pos h1]
    simp
  by_cases h2 : cp < 0x800
  · have e1 : (0xc0 : Nat) ||| (cp >>> 6) = 192 + cp / 64 := by
      rw [Nat.shiftRight_eq_div_pow]
      norm_num
      exact lor_eq_add (n := 5) 192 (cp / 64) (by norm_num) (by norm_num <;> omega)
    have e2 : (0x80 : Nat) ||| (cp &&& 0x3f) = 128 + cp % 64 := by
      rw [and_mod64]
      exact cont_val _ (by omega)
    refine ⟨_, _, by rw [serializeUnit, if_neg h1, if_pos h2], ?_⟩
    rw [e1, e2]
    simp only [utf8Step]
    rw [if_neg (by omega), if_neg (by omega), if_pos (by omega)]
    dsimp only
    have hb1 : (128 + cp % 64) &&& 0xc0 = 0x80 := cont_check _ (by omega)
    have hch0 : (192 + cp / 64) &&& 0x1f = cp / 64 := by rw [and_mod32]; omega
    have hfold : ((cp / 64) <<< 6) ||| ((128 + cp % 64) &&& 0x3f) = cp := by
      rw [fold_step _ _ (by omega)]
      omega
    simp only [List.singleton_append, List.length_cons, List.take_succ_cons, List.take_zero,
      List.all_cons, List.all_nil, List.foldl_cons, List.foldl_nil, List.drop_succ_cons,
      List.drop_zero, hb1, hch0, hfold]
    rw [if_neg (by omega)]
    simp
  by_cases h3 : cp < 0x10000
  · have e1 : (0xe0 : Nat) ||| (cp >>> 12) = 224 + cp / 4096 := by
      rw [Nat.shiftRight_eq_div_pow]
      norm_num
      exact lor_eq_add (n := 5) 224 (cp / 4096) (by norm_num) (by norm_num <;> omega)
    have e2 : (0x80 : Nat) ||| ((cp >>> 6) &&& 0x3f) = 128 + cp / 64 % 64 := by
      rw [Nat.shiftRight_eq_div_pow, and_mod64]
      norm_num
      exact cont_val _ (by omega)
    have e3 : (0x80 : Nat) ||| (cp &&& 0x3f) = 128 + cp % 64 := by
      rw [and_mod64]
      exact cont_val _ (by omega)
    refine ⟨_, _, by rw [serializeUnit, if_neg h1, if_neg h2, if_pos h3], ?_⟩
    rw [e1, e2, e3]
    simp only [utf8Step]
    rw [if_neg (by omega), if_neg (by omega), if_neg (by omega), if_pos (by omega)]
    dsimp only
    simp only [List.cons_append, List.nil_append, List.length_cons]
    rw [if_neg (by omega)]
    simp only [List.take_succ_cons, List.take_zero, List.all_cons, List.all_nil,
      List.foldl_cons, List.foldl_nil, List.drop_succ_cons, List.drop_zero]
    have hb1 : (128 + cp / 64 % 64) &&& 0xc0 = 0x80 := cont_check _ (by omega)
    have hb2 : (128 + cp % 64) &&& 0xc0 = 0x80 := cont_check _ (by omega)
    rw [if_pos (by simp [hb1, hb2])]
    have hch0 : (224 + cp / 4096) &&& 0x0f = cp / 4096 := by rw [and_mod16]; omega
    rw [hch0]
    rw [fold_step (cp / 4096) (cp / 64 % 64) (by omega)]
    rw [fold_step (cp / 4096 * 64 + cp / 64 % 64) (cp % 64) (by omega)]
    have hfold : (cp / 4096 * 64 + cp / 64 % 64) * 64 + cp % 64 = cp := by omega
    rw [hfold]
    have hover : cp >>> (2 * 5 + 1) = cp / 2048 := by
      rw [Nat.shiftRight_eq_div_pow]
      try norm_num
    rw [hover, if_neg (by omega)]
  by_cases h4 : cp < 0x200000
  · have e1 : (0xf0 : Nat) ||| (cp >>> 18) = 240 + cp / 262144 := by
      rw [Nat.shiftRight_eq_div_pow]
      norm_num
      exact lor_eq_add (n := 4) 240 (cp / 262144) (by norm_num) (by norm_num <;> omega)
    have e2 : (0x80 : Nat) ||| ((cp >>> 12) &&& 0x3f) = 128 + cp / 4096 % 64 := by
      rw [Nat.shiftRight_eq_div_pow, and_mod64]
      norm_num
      exact cont_val _ (by omega)
    have e3 : (0x80 : Nat) ||| ((cp >>> 6) &&& 0x3f) = 128 + cp / 64 % 64 := by
      rw [Nat.shiftRight_eq_div_pow, and_mod64]
      norm_num
      exact cont_val _ (by omega)
    have e4 : (0x80 : Nat) ||| (cp &&& 0x3f) = 128 + cp % 64 := by
      rw [and_mod64]
      exact cont_val _ (by omega)
    refine ⟨_, _, by rw [serializeUnit, if_neg h1, if_neg h2, if_neg h3, if_pos h4], ?_⟩
    rw [e1, e2, e3, e4]
    simp only [utf8Step]
    rw [if_neg (by omega), if_neg (by omega), if_neg (by omega), if_neg (by omega),
      if_pos (by omega)]
    dsimp only
    simp only [List.cons_append, List.nil_append, List.length_cons]
    rw [if_neg (by omega)]
    simp only [List.take_succ_cons, List.take_zero, List.all_cons, List.all_nil,
      List.foldl_cons, List.foldl_nil, List.drop_succ_cons, List.drop_zero]
    have hb1 : (128 + cp / 4096 % 64) &&& 0xc0 = 0x80 := cont_check _ (by omega)
    have hb2 : (128 + cp / 64 % 64) &&& 0xc0 = 0x80 := cont_check _ (by omega)
    have hb3 : (128 + cp % 64) &&& 0xc0 = 0x80 := cont_check _ (by omega)
    rw [if_pos (by simp [hb1, hb2, hb3])]
    have hch0 : (240 + cp / 262144) &&& 0x07 = cp / 262144 := by rw [and_mod8]; omega
    rw [hch0]
    rw [fold_step (cp / 262144) (cp / 4096 % 64) (by omega)]
    rw [fold_step (cp / 262144 * 64 + cp / 4096 % 64) (cp / 64 % 64) (by omega)]
    rw [fold_step ((cp / 262144 * 64 + cp / 4096 % 64) * 64 + cp / 64 % 64) (cp % 64) (by omega)]
    have hfold : ((cp / 262144 * 64 + cp / 4096 % 64) * 64 + cp / 64 % 64) * 64 + cp % 64
        = cp := by omega
    rw [hfold]
    have hover : cp >>> (3 * 5 + 1) = cp / 65536 := by
      rw [Nat.shiftRight_eq_div_pow]
      try norm_num
    rw [hover, if_neg (by omega)]
  by_cases h5 : cp < 0x4000000
  · have e1 : (0xf8 : Nat) ||| (cp >>> 24) = 248 + cp / 16777216 := by
      rw [Nat.shiftRight_eq_div_pow]
      norm_num
      exact lor_eq_add (n := 3) 248 (cp / 16777216) (by norm_num) (by norm_num <;> omega)
    have e2 : (0x80 : Nat) ||| ((cp >>> 18) &&& 0x3f) = 128 + cp / 262144 % 64 := by
      rw [Nat.shiftRight_eq_div_pow, and_mod64]
      norm_num
      exact cont_val _ (by omega)
    have e3 : (0x80 : Nat) ||| ((cp >>> 12) &&& 0x3f) = 128 + cp / 4096 % 64 := by
      rw [Nat.shiftRight_eq_div_pow, and_mod64]
      norm_num
      exact cont_val _ (by omega)
    have e4 : (0x80 : Nat) ||| ((cp >>> 6) &&& 0x3f) = 128 + cp / 64 % 64 := by
      rw [Nat.shiftRight_eq_div_pow, and_mod64]
      norm_num
      exact cont_val _ (by omega)
    have e5 : (0x80 : Nat) ||| (cp &&& 0x3f) = 128 + cp % 64 := by
      rw [and_mod64]
      exact cont_val _ (by omega)
    refine ⟨_, _,
      by rw [serializeUnit, if_neg h1, if_neg h2, if_neg h3, if_neg h4, if_pos h5], ?_⟩
    rw [e1, e2, e3, e4, e5]
    simp only [utf8Step]
    rw [if_neg (by omega), if_neg (by omega), if_neg (by omega), if_neg (by omega),
      if_neg (by omega), if_pos (by omega)]
    dsimp only
    simp only [List.cons_append, List.nil_append, List.length_cons]
    rw [if_neg (by omega)]
    simp only [List.take_succ_cons, List.take_zero, List.all_cons, List.all_nil,
      List.foldl_cons, List.foldl_nil, List.drop_succ_cons, List.drop_zero]
    have hb1 : (128 + cp / 262144 % 64) &&& 0xc0 = 0x80 := cont_check _ (by omega)
    have hb2 : (128 + cp / 4096 % 64) &&& 0xc0 = 0x80 := cont_check _ (by omega)
    have hb3 : (128 + cp / 64 % 64) &&& 0xc0 = 0x80 := cont_check _ (by omega)
    have hb4 : (128 + cp % 64) &&& 0xc0 = 0x80 := cont_check _ (by omega)
    rw [if_pos (by simp [hb1, hb2, hb3, hb4])]
    have hch0 : (248 + cp / 16777216) &&& 0x03 = cp / 16777216 := by rw [and_mod4]; omega
    rw [hch0]
    rw [fold_step (cp / 16777216) (cp / 262144 % 64) (by omega)]
    rw [fold_step (cp / 16777216 * 64 + cp / 262144 % 64) (cp / 4096 % 64) (by omega)]
    rw [fold_step ((cp / 16777216 * 64 + cp / 262144 % 64) * 64 + cp / 4096 % 64)
      (cp / 64 % 64) (by omega)]
    rw [fold_step (((cp / 16777216 * 64 + cp / 262144 % 64) * 64 + cp / 4096 % 64) * 64 +
      cp / 64 % 64) (cp % 64) (by omega)]
    have hfold : (((cp / 16777216 * 64 + cp / 262144 % 64) * 64 + cp / 4096 % 64) * 64 +
        cp / 64 % 64) * 64 + cp % 64 = cp := by omega
    rw [hfold]
    have hover : cp >>> (4 * 5 + 1) = cp / 2097152 := by
      rw [Nat.shiftRight_eq_div_pow]
      try norm_num
    rw [hover, if_neg (by omega)]
  · have e1 : (0xfc : Nat) ||| (cp >>> 30) = 252 + cp / 1073741824 := by
      rw [Nat.shiftRight_eq_div_pow]
      norm_num
      exact lor_eq_add (n := 2) 252 (cp / 1073741824) (by norm_num) (by norm_num <;> omega)
    have e2 : (0x80 : Nat) ||| ((cp >>> 24) &&& 0x3f) = 128 + cp / 16777216 % 64 := by
      rw [Nat.shiftRight_eq_div_pow, and_mod64]
      norm_num
      exact cont_val _ (by omega)
    have e3 : (0x80 : Nat) ||| ((cp >>> 18) &&& 0x3f) = 128 + cp / 262144 % 64 := by
      rw [Nat.shiftRight_eq_div_pow, and_mod64]
      norm_num
      exact cont_val _ (by omega)
    have e4 : (0x80 : Nat) ||| ((cp >>> 12) &&& 0x3f) = 128 + cp / 4096 % 64 := by
      rw [Nat.shiftRight_eq_div_pow, and_mod64]
      norm_num
      exact cont_val _ (by omega)
    have e5 : (0x80 : Nat) ||| ((cp >>> 6) &&& 0x3f) = 128 + cp / 64 % 64 := by
      rw [Nat.shiftRight_eq_div_pow, and_mod64]
      norm_num
      exact cont_val _ (by omega)
    have e6 : (0x80 : Nat) ||| (cp &&& 0x3f) = 128 + cp % 64 := by
      rw [and_mod64]
      exact cont_val _ (by omega)
    refine ⟨_, _,
      by rw [serializeUnit, if_neg h1, if_neg h2, if_neg h3, if_neg h4, if_neg h5], ?_⟩
    rw [e1, e2, e3, e4, e5, e6]
    simp only [utf8Step]
    rw [if_neg (by omega), if_neg (by omega), if_neg (by omega), if_neg (by omega),
      if_neg (by omega), if_neg (by omega), if_pos (by omega)]
    dsimp only
    simp only [List.cons_append, List.nil_append, List.length_cons]
    rw [if_neg (by omega)]
    simp only [List.take_succ_cons, List.take_zero, List.all_cons, List.all_nil,
      List.foldl_cons, List.foldl_nil, List.drop_succ_cons, List.drop_zero]
    have hb1 : (128 + cp / 16777216 % 64) &&& 0xc0 = 0x80 := cont_check _ (by omega)
    have hb2 : (128 + cp / 262144 % 64) &&& 0xc0 = 0x80 := cont_check _ (by omega)
    have hb3 : (128 + cp / 4096 % 64) &&& 0xc0 = 0x80 := cont_check _ (by omega)
    have hb4 : (128 + cp / 64 % 64) &&& 0xc0 = 0x80 := cont_check _ (by omega)
    have hb5 : (128 + cp % 64) &&& 0xc0 = 0x80 := cont_check _ (by omega)
    rw [if_pos (by simp [hb1, hb2, hb3, hb4, hb5])]
    have hch0 : (252 + cp / 1073741824) &&& 0x01 = cp / 1073741824 := by rw [and_mod2]; omega
    rw [hch0]
    rw [fold_step (cp / 1073741824) (cp / 16777216 % 64) (by omega)]
    rw [fold_step (cp / 1073741824 * 64 + cp / 16777216 % 64) (cp / 262144 % 64) (by omega)]
    rw [fold_step ((cp / 1073741824 * 64 + cp / 16777216 % 64) * 64 + cp / 262144 % 64)
      (cp / 4096 % 64) (by omega)]
    rw [fold_step (((cp / 1073741824 * 64 + cp / 16777216 % 64) * 64 + cp / 262144 % 64) * 64 +
      cp / 4096 % 64) (cp / 64 % 64) (by omega)]
    rw [fold_step ((((cp / 1073741824 * 64 + cp / 16777216 % 64) * 64 + cp / 262144 % 64) * 64 +
      cp / 4096 % 64) * 64 + cp / 64 % 64) (cp % 64) (by omega)]
    have hfold : ((((cp / 1073741824 * 64 + cp / 16777216 % 64) * 64 + cp / 262144 % 64) * 64 +
        cp / 4096 % 64) * 64 + cp / 64 % 64) * 64 + cp % 64 = cp := by omega
    rw [hfold]
    have hover : cp >>> (5 * 5 + 1) = cp / 67108864 := by
      rw [Nat.shiftRight_eq_div_pow]
      try norm_num
    rw [hover, if_neg (by omega)]

/-- Every `serializeUnit` image is nonempty, so serialization never
shortens a code-point list. -/
theorem length_le_bind_serializeUnit :
    ∀ cps : List Nat, cps.length ≤ (cps.bind serializeUnit).length := by
  intro cps
  induction cps with
  | nil => simp
  | cons cp rest ih =>
    have h1 : 1 ≤ (serializeUnit cp).length := by
      unfold serializeUnit
      split_ifs <;> simp
    rw [show (cp :: rest).bind serializeUnit = serializeUnit cp ++ rest.bind serializeUnit
      from rfl, List.length_append, List.length_cons]
    omega

/-- A serialized code-point sequence parses back to itself. -/
theorem utf8Parse_serialize : ∀ (cps : List Nat) (fuel : Nat),
    (∀ cp ∈ cps, cp < 0x80000000) → cps.length < fuel →
    utf8Parse fuel (cps.bind serializeUnit) = some cps := by
  intro cps
  induction cps with
  | nil =>
    intro fuel _ hfuel
    rcases fuel with _ | fuel
    · omega
    · simp [utf8Parse]
  | cons cp rest ih =>
    intro fuel hv hfuel
    rcases fuel with _ | fuel
    · omega
    obtain ⟨c, cs, hser, hstep⟩ :=
      utf8Step_serialize cp (hv cp (by simp)) (rest.bind serializeUnit)
    have hbind : (cp :: rest).bind serializeUnit = c :: (cs ++ rest.bind serializeUnit) := by
      simp only [List.cons_bind, hser, List.cons_append]
    rw [hbind]
    simp only [utf8Parse]
    rw [hstep]
    dsimp only
    rw [ih fuel (fun x hx => hv x (List.mem_cons_of_mem cp hx)) (by simp at hfuel; omega)]
    rfl

/-- The emission phase is insensitive to replacing each code point by
its clamped value: the encoder itself clamps every code point it packs
into the Base64 accumulator. -/
theorem encGo_clamp : ∀ (cps : List Nat) (base64 : Bool) (b : Nat) (k : Int),
    encGo (cps.map fun cp => if 0xffff < cp then 0xfffe else cp) base64 b k
      = encGo cps base64 b k := by
  intro cps
  induction cps with
  | nil => intro base64 b k; rfl
  | cons ch rest ih =>
    intro base64 b k
    by_cases hsup : 0xffff < ch
    · have hm : (fun cp => if 0xffff < cp then 0xfffe else cp) ch = (0xfffe : Nat) := by
        simp [hsup]
      simp only [List.map_cons, hm, encGo]
      rw [if_pos (by norm_num : (0xfffe : Nat) < 0x20 ∨ (0x7f : Nat) ≤ 0xfffe),
        if_pos (Or.inr (by omega) : ch < 0x20 ∨ 0x7f ≤ ch)]
      rw [ih]
      norm_num
    · have hm : (fun cp => if 0xffff < cp then 0xfffe else cp) ch = ch := by
        simp [hsup]
      simp only [List.map_cons, hm, encGo]
      by_cases hlit : ch < 0x20 ∨ 0x7f ≤ ch
      · rw [if_pos hlit, if_pos hlit, ih]
      · rw [if_neg hlit, if_neg hlit, ih]

/-- C6: the encoder does not fail on supra-BMP code points; it clamps
them to `0xFFFE`.  For every valid UTF-8 input (given as the
serialization of its code-point sequence, any classic 1-to-6-byte
form), `utf8_to_utf7` succeeds, and its output equals its output on
the same input with every code point above `0xFFFF` replaced by
`0xFFFE`. -/
theorem utf8_encode_clamps_supra_bmp (cps : List Nat)
    (h : ∀ cp ∈ cps, cp < 0x80000000) :
    ∃ w, utf8_to_utf7 (cps.bind serializeUnit) = some w ∧
      utf8_to_utf7 ((cps.map fun cp => if 0xffff < cp then 0xfffe else cp).bind serializeUnit)
        = some w := by
  refine ⟨encGo cps false 0 0, ?_, ?_⟩
  · unfold utf8_to_utf7
    rw [utf8Go_factor]
    rw [utf8Parse_serialize cps _ h
      (by have := length_le_bind_serializeUnit cps; omega)]
    rfl
  · unfold utf8_to_utf7
    rw [utf8Go_factor]
    rw [utf8Parse_serialize _ _
      (by
        intro cp hcp
        simp only [List.mem_map] at hcp
        obtain ⟨x, hx, rfl⟩ := hcp
        split_ifs
        · norm_num
        · exact h x hx)
      (by
        have h1 := length_le_bind_serializeUnit
          (cps.map fun cp => if 0xffff < cp then 0xfffe else cp)
        have h2 : (cps.map fun cp => if 0xffff < cp then 0xfffe else cp).length
            = cps.length := List.length_map _ _
        omega)]
    simp only [Option.map_some']
    rw [encGo_clamp]

/-- Witness for C6 at a concrete supra-BMP input (U+1F600). -/
theorem utf8_encode_clamps_supra_bmp_witness :
    (∀ cp ∈ [0x1F600, 0x41], cp < 0x80000000) ∧
      ∃ w, utf8_to_utf7 ([0x1F600, 0x41].bind serializeUnit) = some w ∧
        utf8_to_utf7 (([0x1F600, 0x41].map
          fun cp => if 0xffff < cp then 0xfffe else cp).bind serializeUnit) = some w :=
  ⟨by decide, utf8_encode_clamps_supra_bmp [0x1F600, 0x41] (by decide)⟩

/-! ## Canonical digits of a Base64 shift section -/

/-- The Base64 alphabet entries invert through `Index64u`, have the
high bit clear, and are never the dash. -/
theorem b64char_spec : ∀ d < 64,
    ¬(b64char d &&& 0x80 ≠ 0 ∨ index64 (b64char d) = -1) ∧
    (index64 (b64char d)).toNat = d ∧ b64char d ≠ 0x2d := by decide

/-- The UTF-8 bytes `utf7_to_utf8` emits for one decoded 16-bit
unit. -/
def utf8Bytes (v : Nat) : List Nat :=
  if v < 0x80 then [v]
  else if v < 0x800 then [0xc0 ||| (v >>> 6), 0x80 ||| (v &&& 0x3f)]
  else [0xe0 ||| (v >>> 12), 0x80 ||| ((v >>> 6) &&& 0x3f), 0x80 ||| (v &&& 0x3f)]

/-- A 16-bit unit the codec can carry in a shift section: in range and
not printable ASCII. -/
def uValid (u : Nat) : Prop := u < 0x10000 ∧ ¬(0x20 ≤ u ∧ u < 0x7f)

/-- The inner loop's accumulate step on a digit while room remains. -/
theorem decodeB64_acc (ch : Nat) (k : Int) (d : Nat) (rest : List Nat)
    (hd : d < 64) (hk : 0 < k) :
    decodeB64 ch k (b64char d :: rest)
      = decodeB64 (ch ||| (d <<< k.toNat)) (k - 6) rest := by
  obtain ⟨hb64, hidx, -⟩ := b64char_spec d hd
  simp only [decodeB64]
  rw [if_neg hb64, hidx, if_pos hk]

/-- The inner loop's emit step on a digit that completes a unit. -/
theorem decodeB64_emit (ch : Nat) (k : Int) (d : Nat) (rest : List Nat) (u : Nat)
    (hd : d < 64) (hk : ¬ 0 < k)
    (hu : ch ||| (d >>> (-k).toNat) = u)
    (hok : ¬(0x20 ≤ u ∧ u < 0x7f)) :
    decodeB64 ch k (b64char d :: rest)
      = (decodeB64 ((d <<< (16 + k).toNat) &&& 0xffff) (k + 10) rest).map
          (fun r => (utf8Bytes u ++ r.1, r.2)) := by
  obtain ⟨hb64, hidx, -⟩ := b64char_spec d hd
  simp only [decodeB64]
  rw [if_neg hb64, hidx, if_neg hk, hu]
  by_cases h80 : u < 0x80
  · rw [if_pos h80, if_neg hok]
    unfold utf8Bytes
    rw [if_pos h80]
    rfl
  · rw [if_neg h80]
    by_cases h800 : u < 0x800
    · rw [if_pos h800]
      unfold utf8Bytes
      rw [if_neg h80, if_pos h800]
      rfl
    · rw [if_neg h800]
      unfold utf8Bytes
      rw [if_neg h80, if_neg h800]
      rfl

/-- The inner loop stops at the first non-digit byte. -/
theorem decodeB64_stop (ch : Nat) (k : Int) (c : Nat) (rest : List Nat)
    (h : c &&& 0x80 ≠ 0 ∨ index64 c = -1) :
    decodeB64 ch k (c :: rest) = some ([], ch, k, c :: rest) := by
  simp only [decodeB64]
  rw [if_pos h]

/-- Unfolding `encUnit` from a fresh shift sequence (`b = 0`,
`k = 10`): two digits, carrying the low 4 bits of `u`. -/
theorem encUnit_p10 (u : Nat) :
    encUnit 0 10 u = ([b64char (u >>> 10), b64char ((u >>> 4) &&& 0x3f)],
      (u <<< 2) &&& 0x3f, 14) := by
  unfold encUnit
  rw [show ((10 : Int) - 6) = 4 by decide, b64EmitLoop_four]
  dsimp only
  rw [show ((10 : Int).toNat) = 10 from rfl, show ((-(-2 : Int)).toNat) = 2 from rfl,
    show ((-2 : Int) + 16) = 14 by decide, Nat.zero_or]

/-- Unfolding `encUnit` at `k = 14` (one unit pending in the carry):
three digits, carrying the low 2 bits of `u`. -/
theorem encUnit_p14 (b : Nat) (u : Nat) :
    encUnit b 14 u = ([b64char (b ||| (u >>> 14)), b64char ((u >>> 8) &&& 0x3f),
      b64char ((u >>> 2) &&& 0x3f)], (u <<< 4) &&& 0x3f, 12) := by
  unfold encUnit
  rw [show ((14 : Int) - 6) = 8 by decide, b64EmitLoop_eight]
  dsimp only
  rw [show ((14 : Int).toNat) = 14 from rfl, show ((-(-4 : Int)).toNat) = 4 from rfl,
    show ((-4 : Int) + 16) = 12 by decide]

/-- Unfolding `encUnit` at `k = 12`: three digits, empty carry. -/
theorem encUnit_p12 (b : Nat) (u : Nat) :
    encUnit b 12 u = ([b64char (b ||| (u >>> 12)), b64char ((u >>> 6) &&& 0x3f),
      b64char (u &&& 0x3f)], 0, 10) := by
  unfold encUnit
  rw [show ((12 : Int) - 6) = 6 by decide, b64EmitLoop_six]
  dsimp only
  rw [show ((12 : Int).toNat) = 12 from rfl, show ((-(-6 : Int)).toNat) = 6 from rfl,
    show ((-6 : Int) + 16) = 10 by decide]
  have hz : (u <<< 6) &&& 0x3f = 0 := by
    rw [and_mod64, Nat.shiftLeft_eq]
    norm_num
  rw [hz]

/-- Decoding the two digits produced for a unit `u` at the start of a
shift section: no unit completes yet; the top 12 bits of `u` sit in
the accumulator with `k = -2`. -/
theorem dec_unit_p10 (u : Nat) (hu : u < 0x10000) (rest : List Nat) :
    decodeB64 0 10 (b64char (u >>> 10) :: b64char ((u >>> 4) &&& 0x3f) :: rest)
      = decodeB64 (u / 16 * 16) (-2) rest := by
  have h1 : u >>> 10 = u / 1024 := by rw [Nat.shiftRight_eq_div_pow]
  have h2 : (u >>> 4) &&& 0x3f = u / 16 % 64 := by
    rw [Nat.shiftRight_eq_div_pow, and_mod64]
  rw [h1, h2]
  rw [decodeB64_acc _ _ _ _ (by omega) (by decide)]
  have e1 : (0 : Nat) ||| ((u / 1024) <<< (10 : Int).toNat) = u / 1024 * 1024 := by
    rw [Nat.zero_or, show ((10 : Int).toNat) = 10 from rfl, Nat.shiftLeft_eq]
    try norm_num
  rw [e1, show ((10 : Int) - 6) = 4 by decide]
  rw [decodeB64_acc _ _ _ _ (by omega) (by decide)]
  have e2 : u / 1024 * 1024 ||| ((u / 16 % 64) <<< (4 : Int).toNat) = u / 16 * 16 := by
    rw [show ((4 : Int).toNat) = 4 from rfl, Nat.shiftLeft_eq]
    norm_num
    rw [lor_eq_add (n := 10) _ _ (by norm_num [Nat.mul_mod_left]) (by norm_num <;> omega)]
    omega
  rw [e2, show ((4 : Int) - 6) = -2 by decide]

/-- Decoding the three digits produced for a unit `u` when a unit `w`
is pending: `w` is emitted, and the top 14 bits of `u` remain with
`k = -4`. -/
theorem dec_unit_p14 (w u : Nat) (hw : uValid w) (hu : u < 0x10000) (rest : List Nat) :
    decodeB64 (w / 16 * 16) (-2)
        (b64char (((w <<< 2) &&& 0x3f) ||| (u >>> 14)) :: b64char ((u >>> 8) &&& 0x3f) ::
          b64char ((u >>> 2) &&& 0x3f) :: rest)
      = (decodeB64 (u / 4 * 4) (-4) rest).map (fun r => (utf8Bytes w ++ r.1, r.2)) := by
  obtain ⟨hwa, hwb⟩ := hw
  have hd1 : ((w <<< 2) &&& 0x3f) ||| (u >>> 14) = w % 16 * 4 + u / 16384 := by
    rw [Nat.shiftLeft_eq, and_mod64, Nat.shiftRight_eq_div_pow]
    norm_num
    have hA : w * 4 % 64 = w % 16 * 4 := by omega
    rw [hA, lor_eq_add (n := 2) _ _ (by norm_num [Nat.mul_mod_left]) (by norm_num <;> omega)]
  have h2 : (u >>> 8) &&& 0x3f = u / 256 % 64 := by
    rw [Nat.shiftRight_eq_div_pow, and_mod64]
  have h3 : (u >>> 2) &&& 0x3f = u / 4 % 64 := by
    rw [Nat.shiftRight_eq_div_pow, and_mod64]
  rw [hd1, h2, h3]
  have hid1 : w / 16 * 16 ||| ((w % 16 * 4 + u / 16384) >>> (-(-2 : Int)).toNat) = w := by
    rw [show ((-(-2 : Int)).toNat) = 2 from rfl, Nat.shiftRight_eq_div_pow]
    norm_num
    have hA : (w % 16 * 4 + u / 16384) / 4 = w % 16 := by omega
    rw [hA, lor_eq_add (n := 4) _ _ (by norm_num [Nat.mul_mod_left]) (by norm_num <;> omega)]
    omega
  rw [decodeB64_emit _ _ _ _ w (by omega) (by decide) hid1 hwb]
  have e1 : ((w % 16 * 4 + u / 16384) <<< ((16 + (-2 : Int)).toNat)) &&& 0xffff
      = u / 16384 * 16384 := by
    rw [show ((16 + (-2 : Int)).toNat) = 14 from rfl, Nat.shiftLeft_eq, and_mod65536]
    norm_num
    omega
  rw [e1, show ((-2 : Int) + 10) = 8 by decide]
  rw [decodeB64_acc _ _ _ _ (by omega) (by decide)]
  have e2 : u / 16384 * 16384 ||| ((u / 256 % 64) <<< (8 : Int).toNat) = u / 256 * 256 := by
    rw [show ((8 : Int).toNat) = 8 from rfl, Nat.shiftLeft_eq]
    norm_num
    rw [lor_eq_add (n := 14) _ _ (by norm_num [Nat.mul_mod_left]) (by norm_num <;> omega)]
    omega
  rw [e2, show ((8 : Int) - 6) = 2 by decide]
  rw [decodeB64_acc _ _ _ _ (by omega) (by decide)]
  have e3 : u / 256 * 256 ||| ((u / 4 % 64) <<< (2 : Int).toNat) = u / 4 * 4 := by
    rw [show ((2 : Int).toNat) = 2 from rfl, Nat.shiftLeft_eq]
    norm_num
    rw [lor_eq_add (n := 8) _ _ (by norm_num [Nat.mul_mod_left]) (by norm_num <;> omega)]
    omega
  rw [e3, show ((2 : Int) - 6) = -4 by decide]

/-- Decoding the three digits produced for a unit `u` when a unit `w`
is pending with `k = -4`: both `w` and `u` are emitted and the
accumulator returns to the fresh state. -/
theorem dec_unit_p12 (w u : Nat) (hw : uValid w) (hu : uValid u) (rest : List Nat) :
    decodeB64 (w / 4 * 4) (-4)
        (b64char (((w <<< 4) &&& 0x3f) ||| (u >>> 12)) :: b64char ((u >>> 6) &&& 0x3f) ::
          b64char (u &&& 0x3f) :: rest)
      = (decodeB64 0 10 rest).map (fun r => (utf8Bytes w ++ (utf8Bytes u ++ r.1), r.2)) := by
  obtain ⟨hwa, hwb⟩ := hw
  obtain ⟨hua, hub⟩ := hu
  have hd1 : ((w <<< 4) &&& 0x3f) ||| (u >>> 12) = w % 4 * 16 + u / 4096 := by
    rw [Nat.shiftLeft_eq, and_mod64, Nat.shiftRight_eq_div_pow]
    norm_num
    have hA : w * 16 % 64 = w % 4 * 16 := by omega
    rw [hA, lor_eq_add (n := 4) _ _ (by norm_num [Nat.mul_mod_left])
      (by norm_num <;> omega)]
  have h2 : (u >>> 6) &&& 0x3f = u / 64 % 64 := by
    rw [Nat.shiftRight_eq_div_pow, and_mod64]
  have h3 : u &&& 0x3f = u % 64 := and_mod64 u
  rw [hd1, h2, h3]
  have hid1 : w / 4 * 4 ||| ((w % 4 * 16 + u / 4096) >>> (-(-4 : Int)).toNat) = w := by
    rw [show ((-(-4 : Int)).toNat) = 4 from rfl, Nat.shiftRight_eq_div_pow]
    norm_num
    have hA : (w % 4 * 16 + u / 4096) / 16 = w % 4 := by omega
    rw [hA, lor_eq_add (n := 2) _ _ (by norm_num [Nat.mul_mod_left]) (by norm_num <;> omega)]
    omega
  rw [decodeB64_emit _ _ _ _ w (by omega) (by decide) hid1 hwb]
  have e1 : ((w % 4 * 16 + u / 4096) <<< ((16 + (-4 : Int)).toNat)) &&& 0xffff
      = u / 4096 * 4096 := by
    rw [show ((16 + (-4 : Int)).toNat) = 12 from rfl, Nat.shiftLeft_eq, and_mod65536]
    norm_num
    omega
  rw [e1, show ((-4 : Int) + 10) = 6 by decide]
  rw [decodeB64_acc _ _ _ _ (by omega) (by decide)]
  have e2 : u / 4096 * 4096 ||| ((u / 64 % 64) <<< (6 : Int).toNat) = u / 64 * 64 := by
    rw [show ((6 : Int).toNat) = 6 from rfl, Nat.shiftLeft_eq]
    norm_num
    rw [lor_eq_add (n := 12) _ _ (by norm_num [Nat.mul_mod_left]) (by norm_num <;> omega)]
    omega
  rw [e2, show ((6 : Int) - 6) = 0 by decide]
  have hid2 : u / 64 * 64 ||| ((u % 64) >>> (-(0 : Int)).toNat) = u := by
    rw [show ((-(0 : Int)).toNat) = 0 from rfl, Nat.shiftRight_zero]
    rw [lor_eq_add (n := 6) _ _ (by norm_num [Nat.mul_mod_left]) (by norm_num <;> omega)]
    omega
  rw [decodeB64_emit _ _ _ _ u (by omega) (by decide) hid2 hub]
  have e3 : ((u % 64) <<< ((16 + (0 : Int)).toNat)) &&& 0xffff = 0 := by
    rw [show ((16 + (0 : Int)).toNat) = 16 from rfl, Nat.shiftLeft_eq, and_mod65536]
    norm_num
  rw [e3, show ((0 : Int) + 10) = 10 by decide]
  rw [Option.map_map]
  rfl

/-- Decoding the final carry digit of a section that ends with one
unit pending at `k = -2`: the pending unit is emitted and the section
is well terminated (`ch = 0`, `k = 8`). -/
theorem dec_flush_p14 (w : Nat) (hw : uValid w) (rest : List Nat) :
    decodeB64 (w / 16 * 16) (-2) (b64char ((w <<< 2) &&& 0x3f) :: rest)
      = (decodeB64 0 8 rest).map (fun r => (utf8Bytes w ++ r.1, r.2)) := by
  obtain ⟨hwa, hwb⟩ := hw
  have hd : (w <<< 2) &&& 0x3f = w % 16 * 4 := by
    rw [Nat.shiftLeft_eq, and_mod64]
    norm_num
    omega
  rw [hd]
  have hid : w / 16 * 16 ||| ((w % 16 * 4) >>> (-(-2 : Int)).toNat) = w := by
    rw [show ((-(-2 : Int)).toNat) = 2 from rfl, Nat.shiftRight_eq_div_pow]
    norm_num
    rw [lor_eq_add (n := 4) _ _ (by norm_num [Nat.mul_mod_left]) (by norm_num <;> omega)]
    omega
  rw [decodeB64_emit _ _ _ _ w (by omega) (by decide) hid hwb]
  have e1 : ((w % 16 * 4) <<< ((16 + (-2 : Int)).toNat)) &&& 0xffff = 0 := by
    rw [show ((16 + (-2 : Int)).toNat) = 14 from rfl, Nat.shiftLeft_eq, and_mod65536]
    norm_num
    omega
  rw [e1, show ((-2 : Int) + 10) = 8 by decide]

/-- Decoding the final carry digit of a section that ends with one
unit pending at `k = -4` (`ch = 0`, `k = 6`). -/
theorem dec_flush_p12 (w : Nat) (hw : uValid w) (rest : List Nat) :
    decodeB64 (w / 4 * 4) (-4) (b64char ((w <<< 4) &&& 0x3f) :: rest)
      = (decodeB64 0 6 rest).map (fun r => (utf8Bytes w ++ r.1, r.2)) := by
  obtain ⟨hwa, hwb⟩ := hw
  have hd : (w <<< 4) &&& 0x3f = w % 4 * 16 := by
    rw [Nat.shiftLeft_eq, and_mod64]
    norm_num
    omega
  rw [hd]
  have hid : w / 4 * 4 ||| ((w % 4 * 16) >>> (-(-4 : Int)).toNat) = w := by
    rw [show ((-(-4 : Int)).toNat) = 4 from rfl, Nat.shiftRight_eq_div_pow]
    norm_num
    rw [lor_eq_add (n := 2) _ _ (by norm_num [Nat.mul_mod_left]) (by norm_num <;> omega)]
    omega
  rw [decodeB64_emit _ _ _ _ w (by omega) (by decide) hid hwb]
  have e1 : ((w % 4 * 16) <<< ((16 + (-4 : Int)).toNat)) &&& 0xffff = 0 := by
    rw [show ((16 + (-4 : Int)).toNat) = 12 from rfl, Nat.shiftLeft_eq, and_mod65536]
    norm_num
    omega
  rw [e1, show ((-4 : Int) + 10) = 6 by decide]

/-- The three states of the encoder's Base64 carry, labelled by the
unit whose low bits are still pending in the carry. -/
inductive EncPhase where
  | p10 : EncPhase
  | p14 : Nat → EncPhase
  | p12 : Nat → EncPhase

/-- The encoder carry `b` in each phase. -/
def phB : EncPhase → Nat
  | .p10 => 0
  | .p14 u => (u <<< 2) &&& 0x3f
  | .p12 u => (u <<< 4) &&& 0x3f

/-- The encoder bit-room `k` in each phase. -/
def phK : EncPhase → Int
  | .p10 => 10
  | .p14 _ => 14
  | .p12 _ => 12

/-- The matching decoder accumulator `ch`. -/
def phChD : EncPhase → Nat
  | .p10 => 0
  | .p14 u => u / 16 * 16
  | .p12 u => u / 4 * 4

/-- The matching decoder bit-room `k`. -/
def phKD : EncPhase → Int
  | .p10 => 10
  | .p14 _ => -2
  | .p12 _ => -4

/-- The unit the decoder has not yet emitted in each phase. -/
def phPend : EncPhase → List Nat
  | .p10 => []
  | .p14 u => [u]
  | .p12 u => [u]

/-- Validity of the pending unit. -/
def phOK : EncPhase → Prop
  | .p10 => True
  | .p14 u => uValid u
  | .p12 u => uValid u

/-- The encoder/decoder simulation over a run of units: from matching
phase states, the decoder consumes exactly the digits `encUnits`
produces, emits the UTF-8 bytes of all units except the final pending
one, and lands in the matching phase state again. -/
theorem decodeB64_encUnits :
    ∀ (us : List Nat) (ph : EncPhase),
      (∀ u ∈ us, uValid u) → phOK ph →
      ∃ (ph' : EncPhase) (em : List Nat),
        phOK ph' ∧
        em ++ phPend ph' = phPend ph ++ us ∧
        (encUnits (phB ph) (phK ph) us).2 = (phB ph', phK ph') ∧
        ∀ rest, decodeB64 (phChD ph) (phKD ph) ((encUnits (phB ph) (phK ph) us).1 ++ rest)
          = (decodeB64 (phChD ph') (phKD ph') rest).map
              (fun r => (em.bind utf8Bytes ++ r.1, r.2)) := by
  intro us
  induction us with
  | nil =>
    intro ph hv hok
    refine ⟨ph, [], hok, by simp, rfl, ?_⟩
    intro rest
    simp only [encUnits, List.nil_append, List.nil_bind]
    rcases h : decodeB64 (phChD ph) (phKD ph) rest with _ | ⟨o, c, k2, r⟩
    · rfl
    · simp
  | cons u us ih =>
    intro ph hv hok
    have hu := hv u (by simp)
    obtain ⟨hu1, hu2⟩ := hu
    have hv' : ∀ x ∈ us, uValid x := fun x hx => hv x (List.mem_cons_of_mem _ hx)
    cases ph with
    | p10 =>
      obtain ⟨ph', em, hok', hpend, hstate, hdec⟩ := ih (.p14 u) hv' ⟨hu1, hu2⟩
      simp only [phB, phK, phChD, phKD] at hdec hstate
      refine ⟨ph', em, hok', by simpa using hpend, ?_, ?_⟩
      · simp only [phB, phK, encUnits, encUnit_p10]
        exact hstate
      · intro rest
        simp only [phB, phK, phChD, phKD, encUnits, encUnit_p10]
        rw [List.append_assoc]
        simp only [List.cons_append, List.nil_append]
        rw [dec_unit_p10 u hu1]
        exact hdec rest
    | p14 w =>
      obtain ⟨ph', em, hok', hpend, hstate, hdec⟩ := ih (.p12 u) hv' ⟨hu1, hu2⟩
      simp only [phB, phK, phChD, phKD] at hdec hstate
      refine ⟨ph', w :: em, hok',
        by rw [List.cons_append, hpend]; simp [phPend], ?_, ?_⟩
      · simp only [phB, phK, encUnits, encUnit_p14]
        exact hstate
      · intro rest
        simp only [phB, phK, phChD, phKD, encUnits, encUnit_p14]
        rw [List.append_assoc]
        simp only [List.cons_append, List.nil_append]
        rw [dec_unit_p14 w u hok hu1]
        rw [hdec rest, Option.map_map]
        congr 1
        funext r
        simp [Function.comp, List.append_assoc]
    | p12 w =>
      obtain ⟨ph', em, hok', hpend, hstate, hdec⟩ := ih .p10 hv' trivial
      simp only [phB, phK, phChD, phKD] at hdec hstate
      refine ⟨ph', w :: u :: em, hok',
        by rw [List.cons_append, List.cons_append, hpend]; simp [phPend], ?_, ?_⟩
      · simp only [phB, phK, encUnits, encUnit_p12]
        exact hstate
      · intro rest
        simp only [phB, phK, phChD, phKD, encUnits, encUnit_p12]
        rw [List.append_assoc]
        simp only [List.cons_append, List.nil_append]
        rw [dec_unit_p12 w u hok ⟨hu1, hu2⟩]
        rw [hdec rest, Option.map_map]
        congr 1
        funext r
        simp [Function.comp, List.append_assoc]

/-- The full digit string of one shift section for unit run `us`: the
per-unit digits followed by the final carry digit when `k > 10`. -/
def runDigits (us : List Nat) : List Nat :=
  (encUnits 0 10 us).1 ++
    (if 10 < (encUnits 0 10 us).2.2 then [b64char (encUnits 0 10 us).2.1] else [])

/-- Decoding one complete shift section: the decoder consumes exactly
`runDigits us`, stops at the dash, emits the UTF-8 bytes of all units,
and passes the "Non-zero or too many extra bits" check (`ch = 0`,
`k ≥ 6`). -/
theorem decodeB64_runDigits (us : List Nat) (hv : ∀ u ∈ us, uValid u) (tail : List Nat) :
    ∃ gk : Int, 6 ≤ gk ∧
      decodeB64 0 10 (runDigits us ++ 0x2d :: tail)
        = some (us.bind utf8Bytes, 0, gk, 0x2d :: tail) := by
  obtain ⟨ph', em, hok', hpend, hstate, hdec⟩ := decodeB64_encUnits us .p10 hv trivial
  simp only [phB, phK, phChD, phKD, phPend, List.nil_append] at hpend hdec
  have hstate0 : (encUnits 0 10 us).2 = (phB ph', phK ph') := hstate
  unfold runDigits
  have hs1 : (encUnits 0 10 us).2.1 = phB ph' := congrArg Prod.fst hstate0
  have hs2 : (encUnits 0 10 us).2.2 = phK ph' := congrArg Prod.snd hstate0
  rw [hs1, hs2, List.append_assoc]
  rw [hdec]
  cases ph' with
  | p10 =>
    simp only [phPend, List.append_nil] at hpend
    simp only [phB, phK, phChD, phKD]
    rw [if_neg (by decide)]
    rw [List.nil_append, decodeB64_stop _ _ _ _ (by decide)]
    refine ⟨10, by norm_num, ?_⟩
    simp [hpend]
  | p14 w =>
    simp only [phPend] at hpend
    simp only [phB, phK, phChD, phKD]
    rw [if_pos (by decide)]
    simp only [List.cons_append, List.nil_append]
    rw [dec_flush_p14 w hok']
    rw [decodeB64_stop _ _ _ _ (by decide)]
    refine ⟨8, by norm_num, ?_⟩
    rw [← hpend]
    simp [List.append_bind]
  | p12 w =>
    simp only [phPend] at hpend
    simp only [phB, phK, phChD, phKD]
    rw [if_pos (by decide)]
    simp only [List.cons_append, List.nil_append]
    rw [dec_flush_p12 w hok']
    rw [decodeB64_stop _ _ _ _ (by decide)]
    refine ⟨6, by norm_num, ?_⟩
    rw [← hpend]
    simp [List.append_bind]

/-! ## The token structure of encoder output -/

/-- A maximal segment of encoder output: a printable literal or a
maximal run of shift-encoded units. -/
inductive Tok where
  | lit : Nat → Tok
  | run : List Nat → Tok

/-- Well-formedness of one token. -/
def tokOK : Tok → Prop
  | .lit c => 0x20 ≤ c ∧ c < 0x7f
  | .run us => us ≠ [] ∧ ∀ u ∈ us, uValid u

/-- Well-formedness of a token list. -/
def toksOK (ts : List Tok) : Prop := ∀ t ∈ ts, tokOK t

/-- Maximality: no two adjacent runs. -/
def toksSep : List Tok → Prop
  | [] => True
  | [_] => True
  | t :: t' :: rest =>
    (match t, t' with
      | .run _, .run _ => False
      | _, _ => True) ∧ toksSep (t' :: rest)

/-- The code points a token list denotes. -/
def toksCps (ts : List Tok) : List Nat :=
  ts.bind (fun t => match t with | .lit c => [c] | .run us => us)

/-- The wire bytes of one token. -/
def tokWire : Tok → List Nat
  | .lit c => if c = 0x26 then [0x26, 0x2d] else [c]
  | .run us => 0x26 :: (runDigits us ++ [0x2d])

/-- The wire bytes of a token list. -/
def toksWire (ts : List Tok) : List Nat := ts.bind tokWire

/-- No Base64 alphabet byte is the dash. -/
theorem b64char_ne_dash (x : Nat) : b64char x ≠ 0x2d := by
  unfold b64char
  rcases Nat.lt_or_ge x 64 with h | h
  · exact (by decide : ∀ y < 64, B64Chars.getD y 0 ≠ 0x2d) x h
  · rw [List.getD_eq_default _ _ (by simpa [B64Chars] using h)]
    decide

/-- The digit string of a nonempty run starts with an alphabet byte. -/
theorem runDigits_cons (u : Nat) (us : List Nat) :
    ∃ x l, runDigits (u :: us) = b64char x :: l := by
  unfold runDigits
  simp only [encUnits, encUnit]
  exact ⟨_, _, rfl⟩

/-- Encoder simulation inside an open shift sequence: emitting a unit
run from carry state `(b, k)` produces the run's digits, then the
close (carry digit if `k > 10`, then the dash), then the tail. -/
theorem encGo_run (us : List Nat) : ∀ (b : Nat) (k : Int) (tailCps tailW : List Nat),
    (∀ u ∈ us, uValid u) →
    (∀ b' k', encGo tailCps true b' k'
      = ((if 10 < k' then [b64char b'] else []) ++ [0x2d]) ++ tailW) →
    encGo (us ++ tailCps) true b k
      = (encUnits b k us).1 ++
        (((if 10 < (encUnits b k us).2.2 then [b64char (encUnits b k us).2.1] else []) ++
          [0x2d]) ++ tailW) := by
  induction us with
  | nil =>
    intro b k tailCps tailW _ htail
    simp only [List.nil_append, encUnits]
    exact htail b k
  | cons u us ih =>
    intro b k tailCps tailW hv htail
    obtain ⟨hu1, hu2⟩ := hv u (by simp)
    have hv' : ∀ x ∈ us, uValid x := fun x hx => hv x (List.mem_cons_of_mem _ hx)
    simp only [List.cons_append, encGo, eq_self_iff_true, if_true, List.append_eq]
    rw [if_pos (by omega : u < 0x20 ∨ 0x7f ≤ u), if_neg (by omega : ¬ (0xffff : Nat) < u)]
    rw [ih _ _ tailCps tailW hv' htail]
    simp only [encUnits, encUnit, List.nil_append, List.cons_append, List.append_assoc]

/-- Maximality is preserved by dropping the head token. -/
theorem toksSep_tail {t : Tok} {ts : List Tok} (h : toksSep (t :: ts)) : toksSep ts := by
  cases ts with
  | nil => trivial
  | cons t' ts' => exact h.2

/-- The encoder renders a well-formed, maximal token list exactly as
its wire form (plus the terminating nul), from any dead carry state. -/
theorem encGo_toks : ∀ (n : Nat) (ts : List Tok), ts.length ≤ n → toksOK ts → toksSep ts →
    ∀ (b : Nat) (k : Int), encGo (toksCps ts) false b k = toksWire ts ++ [0] := by
  intro n
  induction n with
  | zero =>
    intro ts hlen _ _ b k
    have hnil : ts = [] := List.eq_nil_of_length_eq_zero (Nat.le_zero.mp hlen)
    subst hnil
    rfl
  | succ n ih =>
    intro ts hlen hok hsep b k
    cases ts with
    | nil => rfl
    | cons t ts' =>
      have hokt := hok t (by simp)
      have hok' : toksOK ts' := fun x hx => hok x (List.mem_cons_of_mem _ hx)
      have hsep' : toksSep ts' := toksSep_tail hsep
      cases t with
      | lit c =>
        obtain ⟨hc1, hc2⟩ := hokt
        show encGo (c :: toksCps ts') false b k = _
        simp only [encGo, Bool.false_eq_true, if_false, List.nil_append]
        rw [if_neg (by omega : ¬(c < 0x20 ∨ 0x7f ≤ c))]
        rw [ih ts' (by simpa using hlen) hok' hsep']
        rw [show toksWire (Tok.lit c :: ts') = tokWire (Tok.lit c) ++ toksWire ts' from rfl]
        rw [List.append_assoc]
        rfl
      | run us =>
        obtain ⟨hne, hval⟩ := hokt
        obtain ⟨u, us'', rfl⟩ := List.exists_cons_of_ne_nil hne
        obtain ⟨hu1, hu2⟩ := hval u (by simp)
        have htail : ∀ (b' : Nat) (k' : Int), encGo (toksCps ts') true b' k'
            = ((if 10 < k' then [b64char b'] else []) ++ [0x2d]) ++ (toksWire ts' ++ [0]) := by
          intro b' k'
          cases ts' with
          | nil =>
            show encGo [] true b' k' = _
            simp only [encGo, eq_self_iff_true, if_true]
            simp [toksWire]
          | cons t2 ts'' =>
            cases t2 with
            | lit c2 =>
              obtain ⟨hc21, hc22⟩ := hok (Tok.lit c2) (by simp)
              have hok'' : toksOK ts'' := fun x hx => hok' x (List.mem_cons_of_mem _ hx)
              have hsep'' : toksSep ts'' := toksSep_tail hsep'
              show encGo (c2 :: toksCps ts'') true b' k' = _
              simp only [encGo, eq_self_iff_true, if_true]
              rw [if_neg (by omega : ¬(c2 < 0x20 ∨ 0x7f ≤ c2))]
              rw [ih ts'' (by simp at hlen ⊢; omega) hok'' hsep'']
              rw [show toksWire (Tok.lit c2 :: ts'')
                = tokWire (Tok.lit c2) ++ toksWire ts'' from rfl]
              simp only [List.append_assoc]
              rfl
            | run us2 =>
              exact hsep.1.elim
        show encGo ((u :: us'') ++ toksCps ts') false b k = _
        simp only [List.cons_append, encGo, Bool.false_eq_true, if_false, List.append_eq]
        rw [if_pos (by omega : u < 0x20 ∨ 0x7f ≤ u), if_neg (by omega : ¬ (0xffff : Nat) < u)]
        rw [encGo_run us'' _ _ _ _ (fun x hx => hval x (List.mem_cons_of_mem _ hx)) htail]
        rw [show toksWire (Tok.run (u :: us'') :: ts')
          = (0x26 :: (runDigits (u :: us'') ++ [0x2d])) ++ toksWire ts' from rfl]
        simp only [runDigits, encUnits, encUnit, List.cons_append, List.nil_append,
          List.append_assoc]

/-- Every token contributes at least one wire byte. -/
theorem tokWire_length_pos (t : Tok) : 1 ≤ (tokWire t).length := by
  cases t with
  | lit c =>
    by_cases h : c = 0x26 <;> simp [tokWire, h]
  | run us => simp [tokWire]

/-- Wire length of a token list decomposes over the head. -/
theorem toksWire_cons_length (t : Tok) (ts : List Tok) :
    (toksWire (t :: ts)).length = (tokWire t).length + (toksWire ts).length := by
  simp [toksWire, List.length_append]

/-- The decoder accepts the wire form of any well-formed, maximal
token list and reproduces its code points' UTF-8 bytes. -/
theorem utf7Go_toks : ∀ (n : Nat) (ts : List Tok) (fuel : Nat),
    ts.length ≤ n → (toksWire ts).length < fuel → toksOK ts → toksSep ts →
    utf7Go fuel (toksWire ts) = some ((toksCps ts).bind utf8Bytes ++ [0]) := by
  intro n
  induction n with
  | zero =>
    intro ts fuel hlen hfuel _ _
    have hnil : ts = [] := List.eq_nil_of_length_eq_zero (Nat.le_zero.mp hlen)
    subst hnil
    rcases fuel with _ | f
    · exact absurd hfuel (Nat.not_lt_zero _)
    · rfl
  | succ n ih =>
    intro ts fuel hlen hfuel hok hsep
    cases ts with
    | nil =>
      rcases fuel with _ | f
      · exact absurd hfuel (Nat.not_lt_zero _)
      · rfl
    | cons t ts' =>
      have hok' : toksOK ts' := fun x hx => hok x (List.mem_cons_of_mem _ hx)
      have hsep' : toksSep ts' := toksSep_tail hsep
      have hlen' : ts'.length ≤ n := by simp at hlen; omega
      rcases fuel with _ | f
      · exact absurd hfuel (Nat.not_lt_zero _)
      have hfw : (toksWire ts').length < f := by
        rw [toksWire_cons_length] at hfuel
        have := tokWire_length_pos t
        omega
      cases t with
      | lit c =>
        obtain ⟨hc1, hc2⟩ := hok (Tok.lit c) (by simp)
        have hbytes : utf8Bytes c = [c] := by
          unfold utf8Bytes
          rw [if_pos (by omega)]
        by_cases hamp : c = 0x26
        · subst hamp
          rw [show toksWire (Tok.lit 0x26 :: ts') = 0x26 :: 0x2d :: toksWire ts' from by
            simp [toksWire, tokWire]]
          rw [utf7Go_cons, if_pos (rfl : (0x26 : Nat) = 0x26),
            if_pos (show ((0x2d : Nat) :: toksWire ts').head? = some 0x2d from rfl),
            List.tail_cons]
          rw [ih ts' f hlen' hfw hok' hsep']
          simp [toksCps, hbytes]
        · rw [show toksWire (Tok.lit c :: ts') = c :: toksWire ts' from by
            simp [toksWire, tokWire, hamp]]
          rw [utf7Go_cons, if_neg hamp, if_neg (by omega : ¬(c < 0x20 ∨ 0x7f ≤ c))]
          rw [ih ts' f hlen' hfw hok' hsep']
          simp [toksCps, hbytes]
      | run us =>
        obtain ⟨hne, hval⟩ := hok (Tok.run us) (by simp)
        obtain ⟨u, us'', rfl⟩ := List.exists_cons_of_ne_nil hne
        rw [show toksWire (Tok.run (u :: us'') :: ts')
          = 0x26 :: (runDigits (u :: us'') ++ (0x2d :: toksWire ts')) from by
          simp [toksWire, tokWire]]
        rw [utf7Go_cons, if_pos (rfl : (0x26 : Nat) = 0x26)]
        obtain ⟨x, l, hrd⟩ := runDigits_cons u us''
        rw [if_neg (by
          rw [hrd, List.cons_append]
          simp [b64char_ne_dash x])]
        obtain ⟨gk, hgk, hdec⟩ := decodeB64_runDigits (u :: us'') hval (toksWire ts')
        rw [utf7ShiftK_eq_some _ _ _ _ _ _ hdec]
        rw [if_neg (by simp; omega),
          if_pos (show ((0x2d : Nat) :: toksWire ts').head? = some 0x2d from rfl),
          List.tail_cons]
        rw [if_neg ?hadj]
        case hadj =>
          cases ts' with
          | nil => simp [toksWire]
          | cons t2 ts'' =>
            cases t2 with
            | lit c2 =>
              obtain ⟨hc21, hc22⟩ := hok (Tok.lit c2) (by simp)
              by_cases h2 : c2 = 0x26
              · subst h2
                rw [show toksWire (Tok.lit 0x26 :: ts'') = 0x26 :: 0x2d :: toksWire ts''
                  from by simp [toksWire, tokWire]]
                intro hcon
                exact hcon.2.2 rfl
              · rw [show toksWire (Tok.lit c2 :: ts'') = c2 :: toksWire ts'' from by
                  simp [toksWire, tokWire, h2]]
                intro hcon
                exact h2 hcon.2.1
            | run us2 => exact hsep.1.elim
        rw [ih ts' f hlen' hfw hok' hsep']
        simp [toksCps, List.append_bind, List.append_assoc]

/-- The head of `dropWhile p l` fails `p`. -/
theorem head_dropWhile_false (p : Nat → Bool) : ∀ (l : List Nat) (x : Nat),
    (l.dropWhile p).head? = some x → p x = false := by
  intro l
  induction l with
  | nil =>
    intro x h
    simp [List.dropWhile] at h
  | cons a l ih =>
    intro x h
    by_cases hp : p a = true
    · rw [List.dropWhile_cons_of_pos hp] at h
      exact ih x h
    · rw [List.dropWhile_cons_of_neg hp] at h
      have hax : a = x := by simpa using h
      subst hax
      exact Bool.not_eq_true _ |>.mp hp

/-- Any BMP code-point sequence groups into a well-formed, maximal
token list (literals as literal tokens, maximal nonliteral runs as run
tokens). -/
theorem groupCps : ∀ (n : Nat) (cps : List Nat), cps.length ≤ n →
    (∀ c ∈ cps, c < 0x10000) →
    ∃ ts, toksOK ts ∧ toksSep ts ∧ toksCps ts = cps ∧
      (∀ us ts', ts = Tok.run us :: ts' →
        ∃ c cps', cps = c :: cps' ∧ (c < 0x20 ∨ 0x7f ≤ c)) := by
  intro n
  induction n with
  | zero =>
    intro cps hlen _
    have hnil : cps = [] := List.eq_nil_of_length_eq_zero (Nat.le_zero.mp hlen)
    subst hnil
    exact ⟨[], fun t ht => absurd ht (List.not_mem_nil t), trivial, rfl,
      fun us ts' h => by simp at h⟩
  | succ n ih =>
    intro cps hlen hv
    rcases cps with _ | ⟨c, rest⟩
    · exact ⟨[], fun t ht => absurd ht (List.not_mem_nil t), trivial, rfl,
        fun us ts' h => by simp at h⟩
    have hc := hv c (by simp)
    have hvrest : ∀ x ∈ rest, x < 0x10000 := fun x hx => hv x (List.mem_cons_of_mem _ hx)
    by_cases hlit : 0x20 ≤ c ∧ c < 0x7f
    · obtain ⟨ts', hok', hsep', hcps', -⟩ := ih rest (by simp at hlen; omega) hvrest
      refine ⟨Tok.lit c :: ts', ?_, ?_, ?_, ?_⟩
      · intro t ht
        rcases List.mem_cons.mp ht with rfl | ht'
        · exact hlit
        · exact hok' t ht'
      · cases ts' with
        | nil => trivial
        | cons t2 ts'' =>
          refine ⟨?_, hsep'⟩
          cases t2 <;> trivial
      · simp [toksCps] at hcps' ⊢
        exact hcps'
      · intro us ts'' h
        simp at h
    · -- nonliteral head: take the maximal nonliteral run
      have hcnl : c < 0x20 ∨ 0x7f ≤ c := by omega
      set p : Nat → Bool := fun x => decide (x < 0x20 ∨ 0x7f ≤ x) with hp
      have hdroplen : (rest.dropWhile p).length ≤ rest.length := by
        have h1 := congrArg List.length (List.takeWhile_append_dropWhile p rest)
        rw [List.length_append] at h1
        omega
      obtain ⟨ts', hok', hsep', hcps', hrunhead⟩ :=
        ih (rest.dropWhile p) (by simp at hlen; omega)
          (fun x hx => hvrest x (by
            have h1 := List.takeWhile_append_dropWhile p rest
            rw [← h1]
            exact List.mem_append_right _ hx))
      refine ⟨Tok.run (c :: rest.takeWhile p) :: ts', ?_, ?_, ?_, ?_⟩
      · intro t ht
        rcases List.mem_cons.mp ht with rfl | ht'
        · refine ⟨by simp, ?_⟩
          intro u hu
          rcases List.mem_cons.mp hu with rfl | hu'
          · exact ⟨hc, by omega⟩
          · have hb : p u = true := List.mem_takeWhile_imp hu'
            have hu16 : u < 0x10000 := hvrest u (List.takeWhile_subset p hu')
            simp [hp] at hb
            exact ⟨hu16, by omega⟩
        · exact hok' t ht'
      · cases hts' : ts' with
        | nil => trivial
        | cons t2 ts'' =>
          refine ⟨?_, by rw [← hts']; exact hsep'⟩
          cases t2 with
          | lit c2 => trivial
          | run us2 =>
            obtain ⟨c2, cps2, hhead, hc2⟩ := hrunhead us2 ts'' hts'
            have hfalse : p c2 = false :=
              head_dropWhile_false p rest c2 (by rw [hhead]; rfl)
            simp [hp] at hfalse
            omega
      · show toksCps (Tok.run (c :: rest.takeWhile p) :: ts') = c :: rest
        rw [show toksCps (Tok.run (c :: rest.takeWhile p) :: ts')
          = (c :: rest.takeWhile p) ++ toksCps ts' from rfl]
        rw [hcps', List.cons_append, List.takeWhile_append_dropWhile]
      · intro us ts'' h
        exact ⟨c, rest, rfl, hcnl⟩

/-- Below `0x10000` the decoder's emitted bytes coincide with the
canonical UTF-8 serialization. -/
theorem utf8Bytes_eq_serializeUnit (c : Nat) (h : c < 0x10000) :
    utf8Bytes c = serializeUnit c := by
  unfold utf8Bytes serializeUnit
  by_cases h80 : c < 0x80
  · rw [if_pos h80, if_pos h80]
  · rw [if_neg h80, if_neg h80]
    by_cases h800 : c < 0x800
    · rw [if_pos h800, if_pos h800]
    · rw [if_neg h800, if_neg h800, if_pos h]

/-- Bind version of the previous lemma. -/
theorem bind_utf8Bytes_eq (l : List Nat) (h : ∀ c ∈ l, c < 0x10000) :
    l.bind utf8Bytes = l.bind serializeUnit := by
  induction l with
  | nil => rfl
  | cons c rest ih =>
    have ih' := ih (fun x hx => h x (List.mem_cons_of_mem _ hx))
    show utf8Bytes c ++ rest.bind utf8Bytes = serializeUnit c ++ rest.bind serializeUnit
    rw [utf8Bytes_eq_serializeUnit c (h c (by simp)), ih']

/-- C1: round trip through the codec.  Every valid UTF-8 string whose
code points lie in the BMP (modelled as the serialization of a
code-point sequence below `0x10000`) encodes successfully, the wire
form decodes successfully, and the decode reproduces the input (both
buffers carrying the terminating nul the C functions append). -/
theorem utf7_roundtrip (cps : List Nat) (h : ∀ cp ∈ cps, cp < 0x10000) :
    ∃ w, utf8_to_utf7 (cps.bind serializeUnit) = some (w ++ [0]) ∧
      utf7_to_utf8 w = some (cps.bind serializeUnit ++ [0]) := by
  obtain ⟨ts, hok, hsep, hcps, -⟩ := groupCps cps.length cps le_rfl h
  refine ⟨toksWire ts, ?_, ?_⟩
  · unfold utf8_to_utf7
    rw [utf8Go_factor, utf8Parse_serialize cps _ (fun cp hcp => by have := h cp hcp; omega)
      (by have := length_le_bind_serializeUnit cps; omega)]
    simp only [Option.map_some']
    rw [← hcps]
    rw [encGo_toks ts.length ts le_rfl hok hsep]
  · unfold utf7_to_utf8
    rw [utf7Go_toks ts.length ts _ le_rfl (by omega) hok hsep]
    rw [hcps, bind_utf8Bytes_eq cps h]

/-- Witness for C1 at the concrete input "Hé" (code points 0x48,
0xE9). -/
theorem utf7_roundtrip_witness :
    (∀ cp ∈ [0x48, 0xE9], cp < 0x10000) ∧
      ∃ w, utf8_to_utf7 ([0x48, 0xE9].bind serializeUnit) = some (w ++ [0]) ∧
        utf7_to_utf8 w = some ([0x48, 0xE9].bind serializeUnit ++ [0]) :=
  ⟨by decide, utf7_roundtrip [0x48, 0xE9] (by decide)⟩

/-! ## Canonicality: accepted digit strings are encoder output -/

set_option maxRecDepth 4000 in
/-- A byte the inner loop accepts as a digit is below `0x80`. -/
theorem isB64_lt (c : Nat) (h : isB64 c) : c < 128 := by
  by_contra hge
  push_neg at hge
  unfold isB64 at h
  push_neg at h
  refine h.2 ?_
  unfold index64
  rw [List.getD_eq_default]
  have hlen : Index64u.length = 128 := by rfl
  omega

set_option maxRecDepth 4000 in
/-- Accepted digit bytes invert through the alphabet. -/
theorem b64char_index64 : ∀ c < 128, isB64 c →
    b64char (index64 c).toNat = c ∧ (index64 c).toNat < 64 := by decide

/-- The emit step bails when the completed unit is printable ASCII. -/
theorem decodeB64_emit_bail (ch : Nat) (k : Int) (d : Nat) (rest : List Nat) (u : Nat)
    (hd : d < 64) (hk : ¬ 0 < k)
    (hu : ch ||| (d >>> (-k).toNat) = u)
    (hpr : 0x20 ≤ u ∧ u < 0x7f) :
    decodeB64 ch k (b64char d :: rest) = none := by
  obtain ⟨hb64, hidx, -⟩ := b64char_spec d hd
  simp only [decodeB64]
  rw [if_neg hb64, hidx, if_neg hk, hu, if_pos (by omega : u < 0x80), if_pos hpr]

/-- A successful inner-loop result localizes: the input splits into
the consumed digit prefix (on which the loop runs to completion with
the same outputs) and the untouched rest. -/
theorem decodeB64_split (l : List Nat) : ∀ ch k out ch' k' r,
    decodeB64 ch k l = some (out, ch', k', r) →
    ∃ ds, l = ds ++ r ∧ (∀ c ∈ ds, isB64 c) ∧
      decodeB64 ch k ds = some (out, ch', k', []) := by
  induction l with
  | nil =>
    intro ch k out ch' k' r h
    simp only [decodeB64, Option.some.injEq, Prod.mk.injEq] at h
    obtain ⟨h1, h2, h3, h4⟩ := h
    exact ⟨[], by simp [h4.symm], by simp, by simp [decodeB64, h1, h2, h3]⟩
  | cons c rest ih =>
    intro ch k out ch' k' r h
    simp only [decodeB64] at h
    by_cases hc : c &&& 0x80 ≠ 0 ∨ index64 c = -1
    · rw [if_pos hc] at h
      simp only [Option.some.injEq, Prod.mk.injEq] at h
      obtain ⟨h1, h2, h3, h4⟩ := h
      exact ⟨[], by simp [h4.symm], by simp,
        by simp [decodeB64, h1, h2, h3]⟩
    · rw [if_neg hc] at h
      have hb64 : isB64 c := hc
      by_cases hk : (0 : Int) < k
      · rw [if_pos hk] at h
        obtain ⟨ds, hds, hall, hrun⟩ := ih _ _ _ _ _ _ h
        refine ⟨c :: ds, by simp [hds], ?_, ?_⟩
        · intro x hx
          rcases List.mem_cons.mp hx with rfl | hx'
          · exact hb64
          · exact hall x hx'
        · simp only [decodeB64]
          rw [if_neg hc, if_pos hk]
          exact hrun
      · rw [if_neg hk] at h
        have step : ∀ (pre : List Nat),
            ((decodeB64 (((index64 c).toNat <<< (16 + k).toNat) &&& 0xffff) (k + 10)
                rest).map (fun r2 => (pre ++ r2.1, r2.2)) = some (out, ch', k', r)) →
            ∃ ds, rest = ds ++ r ∧ (∀ x ∈ ds, isB64 x) ∧
              (decodeB64 (((index64 c).toNat <<< (16 + k).toNat) &&& 0xffff) (k + 10)
                ds).map (fun r2 => (pre ++ r2.1, r2.2)) = some (out, ch', k', []) := by
          intro pre hmap
          rcases hin : decodeB64 (((index64 c).toNat <<< (16 + k).toNat) &&& 0xffff)
              (k + 10) rest with _ | ⟨o2, c2, k2, r2⟩
          · rw [hin] at hmap
            simp at hmap
          · rw [hin] at hmap
            simp only [Option.map_some', Option.some.injEq, Prod.mk.injEq] at hmap
            obtain ⟨ho, hc2, hk2, hr2⟩ := hmap
            subst hr2
            obtain ⟨ds, hds, hall, hrun⟩ := ih _ _ _ _ _ _ hin
            refine ⟨ds, hds, hall, ?_⟩
            rw [hrun]
            simp [ho, hc2, hk2]
        by_cases h80 : ch ||| ((index64 c).toNat >>> (-k).toNat) < 0x80
        · rw [if_pos h80] at h
          by_cases hpr : 0x20 ≤ ch ||| ((index64 c).toNat >>> (-k).toNat) ∧
              ch ||| ((index64 c).toNat >>> (-k).toNat) < 0x7f
          · rw [if_pos hpr] at h
            simp at h
          · rw [if_neg hpr] at h
            obtain ⟨ds, hds, hall, hrun⟩ :=
              step [ch ||| ((index64 c).toNat >>> (-k).toNat)] h
            refine ⟨c :: ds, by simp [hds], ?_, ?_⟩
            · intro x hx
              rcases List.mem_cons.mp hx with rfl | hx'
              · exact hb64
              · exact hall x hx'
            · simp only [decodeB64]
              rw [if_neg hc, if_neg hk, if_pos h80, if_neg hpr]
              exact hrun
        · rw [if_neg h80] at h
          by_cases h800 : ch ||| ((index64 c).toNat >>> (-k).toNat) < 0x800
          · rw [if_pos h800] at h
            obtain ⟨ds, hds, hall, hrun⟩ :=
              step [0xc0 ||| ((ch ||| ((index64 c).toNat >>> (-k).toNat)) >>> 6),
                0x80 ||| ((ch ||| ((index64 c).toNat >>> (-k).toNat)) &&& 0x3f)] h
            refine ⟨c :: ds, by simp [hds], ?_, ?_⟩
            · intro x hx
              rcases List.mem_cons.mp hx with rfl | hx'
              · exact hb64
              · exact hall x hx'
            · simp only [decodeB64]
              rw [if_neg hc, if_neg hk, if_neg h80, if_pos h800]
              exact hrun
          · rw [if_neg h800] at h
            obtain ⟨ds, hds, hall, hrun⟩ :=
              step [0xe0 ||| ((ch ||| ((index64 c).toNat >>> (-k).toNat)) >>> 12),
                0x80 ||| (((ch ||| ((index64 c).toNat >>> (-k).toNat)) >>> 6) &&& 0x3f),
                0x80 ||| ((ch ||| ((index64 c).toNat >>> (-k).toNat)) &&& 0x3f)] h
            refine ⟨c :: ds, by simp [hds], ?_, ?_⟩
            · intro x hx
              rcases List.mem_cons.mp hx with rfl | hx'
              · exact hb64
              · exact hall x hx'
            · simp only [decodeB64]
              rw [if_neg hc, if_neg hk, if_neg h80, if_neg h800]
              exact hrun

/-- `runDigits` of the empty run. -/
theorem runDigits_nil : runDigits [] = [] := rfl

/-- `runDigits` of a one-unit run: three digits. -/
theorem runDigits_one (u : Nat) :
    runDigits [u] = [b64char (u >>> 10), b64char ((u >>> 4) &&& 0x3f),
      b64char ((u <<< 2) &&& 0x3f)] := by
  unfold runDigits
  simp only [encUnits, encUnit_p10]
  rw [if_pos (by decide : (10 : Int) < 14)]
  rfl

/-- `runDigits` of a two-unit run: six digits. -/
theorem runDigits_two (u1 u2 : Nat) :
    runDigits [u1, u2] = [b64char (u1 >>> 10), b64char ((u1 >>> 4) &&& 0x3f),
      b64char (((u1 <<< 2) &&& 0x3f) ||| (u2 >>> 14)), b64char ((u2 >>> 8) &&& 0x3f),
      b64char ((u2 >>> 2) &&& 0x3f), b64char ((u2 <<< 4) &&& 0x3f)] := by
  unfold runDigits
  simp only [encUnits, encUnit_p10, encUnit_p14]
  rw [if_pos (by decide : (10 : Int) < 12)]
  rfl

/-- `runDigits` peels three units (eight digits) at a time. -/
theorem runDigits_chunk (u1 u2 u3 : Nat) (us : List Nat) :
    runDigits (u1 :: u2 :: u3 :: us)
      = [b64char (u1 >>> 10), b64char ((u1 >>> 4) &&& 0x3f),
         b64char (((u1 <<< 2) &&& 0x3f) ||| (u2 >>> 14)), b64char ((u2 >>> 8) &&& 0x3f),
         b64char ((u2 >>> 2) &&& 0x3f),
         b64char (((u2 <<< 4) &&& 0x3f) ||| (u3 >>> 12)), b64char ((u3 >>> 6) &&& 0x3f),
         b64char (u3 &&& 0x3f)] ++ runDigits us := by
  unfold runDigits
  simp only [encUnits, encUnit_p10, encUnit_p14, encUnit_p12, List.cons_append,
    List.nil_append, List.append_assoc]

/-- `List.bind` distributes over append. -/
theorem bind_append_eq (xs ys : List Nat) (f : Nat → List Nat) :
    (xs ++ ys).bind f = xs.bind f ++ ys.bind f := List.append_bind xs ys f

/-- Canonicality of accepted digit strings: any all-digit input on
which the inner loop runs to completion with the canonical-form guard
satisfied (`ch = 0`, `k ≥ 6`) is exactly the digit string the encoder
produces for the emitted unit sequence. -/
theorem decodeB64_canonical : ∀ (n : Nat) (ds : List Nat), ds.length ≤ n →
    (∀ c ∈ ds, isB64 c) →
    ∀ out kf, decodeB64 0 10 ds = some (out, 0, kf, []) → 6 ≤ kf →
    ∃ us, (∀ u ∈ us, uValid u) ∧ runDigits us = ds ∧ us.bind utf8Bytes = out ∧
      (us = [] ↔ ds = []) := by
  intro n
  induction n with
  | zero =>
    intro ds hlen _ out kf h _
    have hnil : ds = [] := List.eq_nil_of_length_eq_zero (Nat.le_zero.mp hlen)
    subst hnil
    simp only [decodeB64, Option.some.injEq, Prod.mk.injEq] at h
    exact ⟨[], by simp, rfl, by simp [← h.1], by simp⟩
  | succ n ih =>
    intro ds hlen hdig out kf h hkf
    rcases ds with _ | ⟨c1, ds⟩
    · simp only [decodeB64, Option.some.injEq, Prod.mk.injEq] at h
      exact ⟨[], by simp, rfl, by simp [← h.1], by simp⟩
    have hv1 : isB64 c1 := hdig c1 (by simp)
    obtain ⟨hc1, hb1⟩ := b64char_index64 c1 (isB64_lt c1 hv1) hv1
    generalize hg1 : (index64 c1).toNat = B1 at hc1 hb1
    rw [← hc1] at h
    rw [decodeB64_acc _ _ _ _ hb1 (by decide)] at h
    have e1 : (0 : Nat) ||| (B1 <<< (10 : Int).toNat) = 0 + B1 * 1024 := by
      rw [Nat.zero_or, show ((10 : Int).toNat) = 10 from rfl, Nat.shiftLeft_eq]
      norm_num
    rw [e1, Nat.zero_add, show ((10 : Int) - 6) = 4 by decide] at h
    rcases ds with _ | ⟨c2, ds⟩
    · simp only [decodeB64, Option.some.injEq, Prod.mk.injEq] at h
      obtain ⟨-, -, hk4, -⟩ := h
      omega
    have hv2 : isB64 c2 := hdig c2 (by simp)
    obtain ⟨hc2, hb2⟩ := b64char_index64 c2 (isB64_lt c2 hv2) hv2
    generalize hg2 : (index64 c2).toNat = B2 at hc2 hb2
    rw [← hc2] at h
    rw [decodeB64_acc _ _ _ _ hb2 (by decide)] at h
    have e2 : B1 * 1024 ||| (B2 <<< (4 : Int).toNat) = B1 * 1024 + B2 * 16 := by
      rw [show ((4 : Int).toNat) = 4 from rfl, Nat.shiftLeft_eq]
      norm_num
      exact lor_eq_add (n := 10) _ _ (by norm_num [Nat.mul_mod_left]) (by norm_num <;> omega)
    rw [e2, show ((4 : Int) - 6) = -2 by decide] at h
    rcases ds with _ | ⟨c3, ds⟩
    · simp only [decodeB64, Option.some.injEq, Prod.mk.injEq] at h
      obtain ⟨-, -, hk4, -⟩ := h
      omega
    have hv3 : isB64 c3 := hdig c3 (by simp)
    obtain ⟨hc3, hb3⟩ := b64char_index64 c3 (isB64_lt c3 hv3) hv3
    generalize hg3 : (index64 c3).toNat = B3 at hc3 hb3
    rw [← hc3] at h
    have i3 : B1 * 1024 + B2 * 16 ||| (B3 >>> (-(-2 : Int)).toNat)
        = B1 * 1024 + B2 * 16 + B3 / 4 := by
      rw [show ((-(-2 : Int)).toNat) = 2 from rfl, Nat.shiftRight_eq_div_pow]
      norm_num
      exact lor_eq_add (n := 4) _ _ (by omega) (by norm_num <;> omega)
    by_cases hpr1 : 0x20 ≤ B1 * 1024 + B2 * 16 + B3 / 4 ∧ B1 * 1024 + B2 * 16 + B3 / 4 < 0x7f
    · rw [decodeB64_emit_bail _ _ _ _ _ hb3 (by decide) i3 hpr1] at h
      simp at h
    rw [decodeB64_emit _ _ _ _ _ hb3 (by decide) i3 hpr1] at h
    have c3e : (B3 <<< ((16 + (-2 : Int)).toNat)) &&& 0xffff = B3 % 4 * 16384 := by
      rw [show ((16 + (-2 : Int)).toNat) = 14 from rfl, Nat.shiftLeft_eq, and_mod65536]
      norm_num
      omega
    rw [c3e, show ((-2 : Int) + 10) = 8 by decide] at h
    rcases ds with _ | ⟨c4, ds⟩
    · simp only [decodeB64, Option.map_some', Option.some.injEq, Prod.mk.injEq] at h
      obtain ⟨hout, hch, hkf8, -⟩ := h
      have hm3 : B3 % 4 = 0 := by omega
      refine ⟨[B1 * 1024 + B2 * 16 + B3 / 4], ?_, ?_, ?_, by simp⟩
      · intro u hu
        have hu' : u = B1 * 1024 + B2 * 16 + B3 / 4 := by simpa using hu
        subst hu'
        exact ⟨by omega, hpr1⟩
      · rw [runDigits_one]
        have d1 : (B1 * 1024 + B2 * 16 + B3 / 4) >>> 10 = B1 := by
          rw [Nat.shiftRight_eq_div_pow]
          norm_num
          omega
        have d2 : ((B1 * 1024 + B2 * 16 + B3 / 4) >>> 4) &&& 0x3f = B2 := by
          rw [Nat.shiftRight_eq_div_pow, and_mod64]
          norm_num
          omega
        have d3 : ((B1 * 1024 + B2 * 16 + B3 / 4) <<< 2) &&& 0x3f = B3 := by
          rw [Nat.shiftLeft_eq, and_mod64]
          norm_num
          omega
        rw [d1, d2, d3, hc1, hc2, hc3]
      · simpa using hout
    have hv4 : isB64 c4 := hdig c4 (by simp)
    obtain ⟨hc4, hb4⟩ := b64char_index64 c4 (isB64_lt c4 hv4) hv4
    generalize hg4 : (index64 c4).toNat = B4 at hc4 hb4
    rw [← hc4] at h
    rw [decodeB64_acc _ _ _ _ hb4 (by decide)] at h
    have e4 : B3 % 4 * 16384 ||| (B4 <<< (8 : Int).toNat) = B3 % 4 * 16384 + B4 * 256 := by
      rw [show ((8 : Int).toNat) = 8 from rfl, Nat.shiftLeft_eq]
      norm_num
      exact lor_eq_add (n := 14) _ _ (by norm_num [Nat.mul_mod_left]) (by norm_num <;> omega)
    rw [e4, show ((8 : Int) - 6) = 2 by decide] at h
    rcases ds with _ | ⟨c5, ds⟩
    · simp only [decodeB64, Option.map_some', Option.some.injEq, Prod.mk.injEq] at h
      obtain ⟨-, -, hk2, -⟩ := h
      omega
    have hv5 : isB64 c5 := hdig c5 (by simp)
    obtain ⟨hc5, hb5⟩ := b64char_index64 c5 (isB64_lt c5 hv5) hv5
    generalize hg5 : (index64 c5).toNat = B5 at hc5 hb5
    rw [← hc5] at h
    rw [decodeB64_acc _ _ _ _ hb5 (by decide)] at h
    have e5 : B3 % 4 * 16384 + B4 * 256 ||| (B5 <<< (2 : Int).toNat)
        = B3 % 4 * 16384 + B4 * 256 + B5 * 4 := by
      rw [show ((2 : Int).toNat) = 2 from rfl, Nat.shiftLeft_eq]
      norm_num
      exact lor_eq_add (n := 8) _ _ (by omega) (by norm_num <;> omega)
    rw [e5, show ((2 : Int) - 6) = -4 by decide] at h
    rcases ds with _ | ⟨c6, ds⟩
    · simp only [decodeB64, Option.map_some', Option.some.injEq, Prod.mk.injEq] at h
      obtain ⟨-, -, hk2, -⟩ := h
      omega
    have hv6 : isB64 c6 := hdig c6 (by simp)
    obtain ⟨hc6, hb6⟩ := b64char_index64 c6 (isB64_lt c6 hv6) hv6
    generalize hg6 : (index64 c6).toNat = B6 at hc6 hb6
    rw [← hc6] at h
    have i6 : B3 % 4 * 16384 + B4 * 256 + B5 * 4 ||| (B6 >>> (-(-4 : Int)).toNat)
        = B3 % 4 * 16384 + B4 * 256 + B5 * 4 + B6 / 16 := by
      rw [show ((-(-4 : Int)).toNat) = 4 from rfl, Nat.shiftRight_eq_div_pow]
      norm_num
      exact lor_eq_add (n := 2) _ _ (by omega) (by norm_num <;> omega)
    by_cases hpr2 : 0x20 ≤ B3 % 4 * 16384 + B4 * 256 + B5 * 4 + B6 / 16 ∧
        B3 % 4 * 16384 + B4 * 256 + B5 * 4 + B6 / 16 < 0x7f
    · rw [decodeB64_emit_bail _ _ _ _ _ hb6 (by decide) i6 hpr2] at h
      simp at h
    rw [decodeB64_emit _ _ _ _ _ hb6 (by decide) i6 hpr2] at h
    have c6e : (B6 <<< ((16 + (-4 : Int)).toNat)) &&& 0xffff = B6 % 16 * 4096 := by
      rw [show ((16 + (-4 : Int)).toNat) = 12 from rfl, Nat.shiftLeft_eq, and_mod65536]
      norm_num
      omega
    rw [c6e, show ((-4 : Int) + 10) = 6 by decide] at h
    rcases ds with _ | ⟨c7, ds⟩
    · simp only [decodeB64, Option.map_some', Option.some.injEq, Prod.mk.injEq] at h
      obtain ⟨hout, hch, hkf6, -⟩ := h
      have hm6 : B6 % 16 = 0 := by omega
      refine ⟨[B1 * 1024 + B2 * 16 + B3 / 4,
        B3 % 4 * 16384 + B4 * 256 + B5 * 4 + B6 / 16], ?_, ?_, ?_, by simp⟩
      · intro u hu
        rcases (by simpa using hu :
            u = B1 * 1024 + B2 * 16 + B3 / 4 ∨
            u = B3 % 4 * 16384 + B4 * 256 + B5 * 4 + B6 / 16) with rfl | rfl
        · exact ⟨by omega, hpr1⟩
        · exact ⟨by omega, hpr2⟩
      · rw [runDigits_two]
        have d1 : (B1 * 1024 + B2 * 16 + B3 / 4) >>> 10 = B1 := by
          rw [Nat.shiftRight_eq_div_pow]
          norm_num
          omega
        have d2 : ((B1 * 1024 + B2 * 16 + B3 / 4) >>> 4) &&& 0x3f = B2 := by
          rw [Nat.shiftRight_eq_div_pow, and_mod64]
          norm_num
          omega
        have d3a : ((B1 * 1024 + B2 * 16 + B3 / 4) <<< 2) &&& 0x3f = B3 / 4 * 4 := by
          rw [Nat.shiftLeft_eq, and_mod64]
          norm_num
          omega
        have d3b : (B3 % 4 * 16384 + B4 * 256 + B5 * 4 + B6 / 16) >>> 14 = B3 % 4 := by
          rw [Nat.shiftRight_eq_div_pow]
          norm_num
          omega
        have d3 : B3 / 4 * 4 ||| B3 % 4 = B3 := by
          rw [lor_eq_add (n := 2) _ _ (by omega) (by norm_num <;> omega)]
          omega
        have d4 : ((B3 % 4 * 16384 + B4 * 256 + B5 * 4 + B6 / 16) >>> 8) &&& 0x3f = B4 := by
          rw [Nat.shiftRight_eq_div_pow, and_mod64]
          norm_num
          omega
        have d5 : ((B3 % 4 * 16384 + B4 * 256 + B5 * 4 + B6 / 16) >>> 2) &&& 0x3f = B5 := by
          rw [Nat.shiftRight_eq_div_pow, and_mod64]
          norm_num
          omega
        have d6 : ((B3 % 4 * 16384 + B4 * 256 + B5 * 4 + B6 / 16) <<< 4) &&& 0x3f = B6 := by
          rw [Nat.shiftLeft_eq, and_mod64]
          norm_num
          omega
        rw [d1, d2, d3a, d3b, d3, d4, d5, d6, hc1, hc2, hc3, hc4, hc5, hc6]
      · simpa using hout
    have hv7 : isB64 c7 := hdig c7 (by simp)
    obtain ⟨hc7, hb7⟩ := b64char_index64 c7 (isB64_lt c7 hv7) hv7
    generalize hg7 : (index64 c7).toNat = B7 at hc7 hb7
    rw [← hc7] at h
    rw [decodeB64_acc _ _ _ _ hb7 (by decide)] at h
    have e7 : B6 % 16 * 4096 ||| (B7 <<< (6 : Int).toNat) = B6 % 16 * 4096 + B7 * 64 := by
      rw [show ((6 : Int).toNat) = 6 from rfl, Nat.shiftLeft_eq]
      norm_num
      exact lor_eq_add (n := 12) _ _ (by norm_num [Nat.mul_mod_left]) (by norm_num <;> omega)
    rw [e7, show ((6 : Int) - 6) = 0 by decide] at h
    rcases ds with _ | ⟨c8, ds⟩
    · simp only [decodeB64, Option.map_some', Option.some.injEq, Prod.mk.injEq] at h
      obtain ⟨-, -, hk0, -⟩ := h
      omega
    have hv8 : isB64 c8 := hdig c8 (by simp)
    obtain ⟨hc8, hb8⟩ := b64char_index64 c8 (isB64_lt c8 hv8) hv8
    generalize hg8 : (index64 c8).toNat = B8 at hc8 hb8
    rw [← hc8] at h
    have i8 : B6 % 16 * 4096 + B7 * 64 ||| (B8 >>> (-(0 : Int)).toNat)
        = B6 % 16 * 4096 + B7 * 64 + B8 := by
      rw [show ((-(0 : Int)).toNat) = 0 from rfl, Nat.shiftRight_zero]
      exact lor_eq_add (n := 6) _ _ (by omega) (by norm_num <;> omega)
    by_cases hpr3 : 0x20 ≤ B6 % 16 * 4096 + B7 * 64 + B8 ∧
        B6 % 16 * 4096 + B7 * 64 + B8 < 0x7f
    · rw [decodeB64_emit_bail _ _ _ _ _ hb8 (by decide) i8 hpr3] at h
      simp at h
    rw [decodeB64_emit _ _ _ _ _ hb8 (by decide) i8 hpr3] at h
    have c8e : (B8 <<< ((16 + (0 : Int)).toNat)) &&& 0xffff = 0 := by
      rw [show ((16 + (0 : Int)).toNat) = 16 from rfl, Nat.shiftLeft_eq, and_mod65536]
      norm_num
    rw [c8e, show ((0 : Int) + 10) = 10 by decide] at h
    rcases hin : decodeB64 0 10 ds with _ | ⟨o, cD, kD, rD⟩
    · rw [hin] at h
      simp at h
    rw [hin] at h
    simp only [Option.map_some', Option.some.injEq, Prod.mk.injEq] at h
    obtain ⟨hout, hch0, hkk, hrnil⟩ := h
    obtain ⟨us, hval, hrd, hbind, -⟩ := ih ds (by simp at hlen; omega)
      (fun x hx => hdig x (by simp [hx])) o kf
      (by rw [hin, hch0, hkk, hrnil]) hkf
    refine ⟨(B1 * 1024 + B2 * 16 + B3 / 4) ::
      (B3 % 4 * 16384 + B4 * 256 + B5 * 4 + B6 / 16) ::
      (B6 % 16 * 4096 + B7 * 64 + B8) :: us, ?_, ?_, ?_, by simp⟩
    · intro u hu
      rcases List.mem_cons.mp hu with rfl | hu
      · exact ⟨by omega, hpr1⟩
      rcases List.mem_cons.mp hu with rfl | hu
      · exact ⟨by omega, hpr2⟩
      rcases List.mem_cons.mp hu with rfl | hu
      · exact ⟨by omega, hpr3⟩
      · exact hval u hu
    · rw [runDigits_chunk]
      have d1 : (B1 * 1024 + B2 * 16 + B3 / 4) >>> 10 = B1 := by
        rw [Nat.shiftRight_eq_div_pow]
        norm_num
        omega
      have d2 : ((B1 * 1024 + B2 * 16 + B3 / 4) >>> 4) &&& 0x3f = B2 := by
        rw [Nat.shiftRight_eq_div_pow, and_mod64]
        norm_num
        omega
      have d3a : ((B1 * 1024 + B2 * 16 + B3 / 4) <<< 2) &&& 0x3f = B3 / 4 * 4 := by
        rw [Nat.shiftLeft_eq, and_mod64]
        norm_num
        omega
      have d3b : (B3 % 4 * 16384 + B4 * 256 + B5 * 4 + B6 / 16) >>> 14 = B3 % 4 := by
        rw [Nat.shiftRight_eq_div_pow]
        norm_num
        omega
      have d3 : B3 / 4 * 4 ||| B3 % 4 = B3 := by
        rw [lor_eq_add (n := 2) _ _ (by omega) (by norm_num <;> omega)]
        omega
      have d4 : ((B3 % 4 * 16384 + B4 * 256 + B5 * 4 + B6 / 16) >>> 8) &&& 0x3f = B4 := by
        rw [Nat.shiftRight_eq_div_pow, and_mod64]
        norm_num
        omega
      have d5 : ((B3 % 4 * 16384 + B4 * 256 + B5 * 4 + B6 / 16) >>> 2) &&& 0x3f = B5 := by
        rw [Nat.shiftRight_eq_div_pow, and_mod64]
        norm_num
        omega
      have d6a : ((B3 % 4 * 16384 + B4 * 256 + B5 * 4 + B6 / 16) <<< 4) &&& 0x3f
          = B6 / 16 * 16 := by
        rw [Nat.shiftLeft_eq, and_mod64]
        norm_num
        omega
      have d6b : (B6 % 16 * 4096 + B7 * 64 + B8) >>> 12 = B6 % 16 := by
        rw [Nat.shiftRight_eq_div_pow]
        norm_num
        omega
      have d6 : B6 / 16 * 16 ||| B6 % 16 = B6 := by
        rw [lor_eq_add (n := 4) _ _ (by omega) (by norm_num <;> omega)]
        omega
      have d7 : ((B6 % 16 * 4096 + B7 * 64 + B8) >>> 6) &&& 0x3f = B7 := by
        rw [Nat.shiftRight_eq_div_pow, and_mod64]
        norm_num
        omega
      have d8 : (B6 % 16 * 4096 + B7 * 64 + B8) &&& 0x3f = B8 := by
        rw [and_mod64]
        omega
      rw [d1, d2, d3a, d3b, d3, d4, d5, d6a, d6b, d6, d7, d8,
        hc1, hc2, hc3, hc4, hc5, hc6, hc7, hc8, hrd]
      rfl
    · show utf8Bytes (B1 * 1024 + B2 * 16 + B3 / 4) ++
        ((B3 % 4 * 16384 + B4 * 256 + B5 * 4 + B6 / 16) ::
          (B6 % 16 * 4096 + B7 * 64 + B8) :: us).bind utf8Bytes = out
      rw [show ((B3 % 4 * 16384 + B4 * 256 + B5 * 4 + B6 / 16) ::
          (B6 % 16 * 4096 + B7 * 64 + B8) :: us).bind utf8Bytes
        = utf8Bytes (B3 % 4 * 16384 + B4 * 256 + B5 * 4 + B6 / 16) ++
          (utf8Bytes (B6 % 16 * 4096 + B7 * 64 + B8) ++ us.bind utf8Bytes) from rfl]
      rw [hbind]
      rw [← hout]

/-- Inversion of a successful decode: any accepted wire string is the
wire form of a well-formed, maximal token list, and the output is that
token list's UTF-8 bytes plus the nul. -/
theorem utf7Go_inv : ∀ (fuel : Nat) (w out : List Nat),
    utf7Go fuel w = some out →
    ∃ ts, toksOK ts ∧ toksSep ts ∧ toksWire ts = w ∧
      out = (toksCps ts).bind utf8Bytes ++ [0] := by
  intro fuel
  induction fuel with
  | zero =>
    intro w out h
    exact absurd h (by simp [utf7Go])
  | succ fuel ih =>
    intro w out h
    rcases w with _ | ⟨c, rest⟩
    · simp only [utf7Go, Option.some.injEq] at h
      exact ⟨[], fun t ht => absurd ht (List.not_mem_nil t), trivial, rfl,
        by simp [← h, toksCps]⟩
    rw [utf7Go_cons] at h
    by_cases hamp : c = 0x26
    · subst hamp
      rw [if_pos rfl] at h
      by_cases hesc : rest.head? = some 0x2d
      · rw [if_pos hesc] at h
        rcases rest with _ | ⟨r0, rest'⟩
        · simp at hesc
        have hr0 : r0 = 0x2d := by simpa using hesc
        subst hr0
        rw [List.tail_cons] at h
        rcases hin : utf7Go fuel rest' with _ | out'
        · rw [hin] at h
          simp at h
        rw [hin] at h
        simp only [Option.map_some', Option.some.injEq] at h
        obtain ⟨ts, hok, hsep, hwire, hout⟩ := ih rest' out' hin
        refine ⟨Tok.lit 0x26 :: ts, ?_, ?_, ?_, ?_⟩
        · intro t ht
          rcases List.mem_cons.mp ht with rfl | ht'
          · exact ⟨by norm_num, by norm_num⟩
          · exact hok t ht'
        · cases ts with
          | nil => trivial
          | cons t2 ts2 => exact ⟨by cases t2 <;> trivial, hsep⟩
        · show tokWire (Tok.lit 0x26) ++ toksWire ts = 0x26 :: 0x2d :: rest'
          rw [hwire]
          rfl
        · rw [← h, hout]
          rfl
      · rw [if_neg hesc] at h
        rcases hdec : decodeB64 0 10 rest with _ | ⟨outB, chB, kB, rest1⟩
        · rw [utf7ShiftK_eq_none _ _ hdec] at h
          simp at h
        rw [utf7ShiftK_eq_some _ _ _ _ _ _ hdec] at h
        by_cases hguard : chB ≠ 0 ∨ kB < 6
        · rw [if_pos hguard] at h
          simp at h
        rw [if_neg hguard] at h
        push_neg at hguard
        by_cases hdash : rest1.head? = some 0x2d
        swap
        · rw [if_neg hdash] at h
          simp at h
        rw [if_pos hdash] at h
        by_cases hadj : 2 ≤ rest1.tail.length ∧ rest1.tail.getD 0 0 = 0x26 ∧
            rest1.tail.getD 1 0 ≠ 0x2d
        · rw [if_pos hadj] at h
          simp at h
        rw [if_neg hadj] at h
        rcases hin : utf7Go fuel rest1.tail with _ | out2
        · rw [hin] at h
          simp at h
        rw [hin] at h
        simp only [Option.map_some', Option.some.injEq] at h
        obtain ⟨ts, hok, hsep, hwire, hout2⟩ := ih _ _ hin
        obtain ⟨ds, hsplit, hall, hrun⟩ := decodeB64_split rest 0 10 outB chB kB rest1 hdec
        rw [hguard.1] at hrun
        obtain ⟨us, hval, hrd, hbind, hiff⟩ := decodeB64_canonical ds.length ds le_rfl hall
          outB kB hrun hguard.2
        rcases rest1 with _ | ⟨d0, r2⟩
        · simp at hdash
        have hd0 : d0 = 0x2d := by simpa using hdash
        subst hd0
        rw [List.tail_cons] at hwire hin hadj
        have hdsne : ds ≠ [] := by
          intro hnil
          subst hnil
          simp only [List.nil_append] at hsplit
          exact hesc (by rw [hsplit]; rfl)
        have husne : us ≠ [] := fun hu => hdsne (hiff.mp hu)
        refine ⟨Tok.run us :: ts, ?_, ?_, ?_, ?_⟩
        · intro t ht
          rcases List.mem_cons.mp ht with rfl | ht'
          · exact ⟨husne, hval⟩
          · exact hok t ht'
        · cases hts : ts with
          | nil => trivial
          | cons t2 ts2 =>
            refine ⟨?_, by rw [← hts]; exact hsep⟩
            cases t2 with
            | lit c2 => trivial
            | run us2 =>
              exfalso
              have hok2 := hok (Tok.run us2) (by rw [hts]; simp)
              obtain ⟨hne2, -⟩ := hok2
              obtain ⟨u0, us2', rfl⟩ := List.exists_cons_of_ne_nil hne2
              obtain ⟨x, l, hrdc⟩ := runDigits_cons u0 us2'
              have hr2 : r2 = 0x26 :: (b64char x :: l ++ ([0x2d] ++ toksWire ts2)) := by
                rw [← hwire, hts]
                show tokWire (Tok.run (u0 :: us2')) ++ toksWire ts2 = _
                rw [show tokWire (Tok.run (u0 :: us2'))
                  = 0x26 :: (runDigits (u0 :: us2') ++ [0x2d]) from rfl, hrdc]
                simp [List.append_assoc]
              refine hadj ⟨?_, ?_, ?_⟩
              · rw [hr2]
                simp
              · rw [hr2]
                rfl
              · rw [hr2]
                show b64char x ≠ 0x2d
                exact b64char_ne_dash x
        · show tokWire (Tok.run us) ++ toksWire ts = 0x26 :: rest
          rw [show tokWire (Tok.run us) = 0x26 :: (runDigits us ++ [0x2d]) from rfl,
            hrd, hwire, hsplit]
          simp [List.append_assoc]
        · rw [← h, hout2, ← hbind]
          show us.bind utf8Bytes ++ ((toksCps ts).bind utf8Bytes ++ [0])
            = (us ++ toksCps ts).bind utf8Bytes ++ [0]
          rw [bind_append_eq, List.append_assoc]
    · rw [if_neg hamp] at h
      by_cases hlit : c < 0x20 ∨ 0x7f ≤ c
      · rw [if_pos hlit] at h
        simp at h
      rw [if_neg hlit] at h
      rcases hin : utf7Go fuel rest with _ | out'
      · rw [hin] at h
        simp at h
      rw [hin] at h
      simp only [Option.map_some', Option.some.injEq] at h
      obtain ⟨ts, hok, hsep, hwire, hout⟩ := ih rest out' hin
      refine ⟨Tok.lit c :: ts, ?_, ?_, ?_, ?_⟩
      · intro t ht
        rcases List.mem_cons.mp ht with rfl | ht'
        · exact ⟨by omega, by omega⟩
        · exact hok t ht'
      · cases ts with
        | nil => trivial
        | cons t2 ts2 => exact ⟨by cases t2 <;> trivial, hsep⟩
      · show tokWire (Tok.lit c) ++ toksWire ts = c :: rest
        rw [show tokWire (Tok.lit c) = if c = 0x26 then [0x26, 0x2d] else [c] from rfl,
          if_neg hamp, hwire]
        rfl
      · rw [← h, hout]
        show c :: ((toksCps ts).bind utf8Bytes ++ [0])
          = (c :: toksCps ts).bind utf8Bytes ++ [0]
        have hb : utf8Bytes c = [c] := by
          unfold utf8Bytes
          rw [if_pos (by omega)]
        show c :: ((toksCps ts).bind utf8Bytes ++ [0])
          = utf8Bytes c ++ (toksCps ts).bind utf8Bytes ++ [0]
        rw [hb]
        rfl

/-- Code points of a well-formed token list are BMP. -/
theorem toksCps_lt (ts : List Tok) (hok : toksOK ts) : ∀ c ∈ toksCps ts, c < 0x10000 := by
  intro c hc
  unfold toksCps at hc
  rw [List.mem_bind] at hc
  obtain ⟨t, ht, hct⟩ := hc
  cases t with
  | lit c2 =>
    obtain ⟨h1, h2⟩ := hok (Tok.lit c2) ht
    have : c = c2 := by simpa using hct
    omega
  | run us =>
    obtain ⟨-, hval⟩ := hok (Tok.run us) ht
    exact (hval c hct).1

/-- C2: wire canonicality.  Whenever `utf7_to_utf8` accepts a wire
string `w`, re-encoding the decoded payload (the output without its
terminating nul) with `utf8_to_utf7` succeeds and reproduces `w`
exactly (plus the terminating nul the encoder appends): the decoder
accepts only the encoder's canonical wire forms. -/
theorem utf7_wire_canonical (w out : List Nat) (h : utf7_to_utf8 w = some out) :
    utf8_to_utf7 out.dropLast = some (w ++ [0]) := by
  obtain ⟨ts, hok, hsep, hwire, hout⟩ := utf7Go_inv (w.length + 1) w out h
  subst hwire
  subst hout
  rw [List.dropLast_concat]
  rw [bind_utf8Bytes_eq _ (toksCps_lt ts hok)]
  unfold utf8_to_utf7
  rw [utf8Go_factor, utf8Parse_serialize _ _
    (fun c hc => by have := toksCps_lt ts hok c hc; omega)
    (by have := length_le_bind_serializeUnit (toksCps ts); omega)]
  simp only [Option.map_some']
  rw [encGo_toks ts.length ts le_rfl hok hsep]

/-- Witness for C2 at the concrete accepted wire string "A&AMA-". -/
theorem utf7_wire_canonical_witness :
    utf7_to_utf8 [0x41, 0x26, 0x41, 0x4d, 0x41, 0x2d] = some [0x41, 0xc3, 0x80, 0x00] ∧
      utf8_to_utf7 ([0x41, 0xc3, 0x80, 0x00] : List Nat).dropLast
        = some ([0x41, 0x26, 0x41, 0x4d, 0x41, 0x2d] ++ [0]) :=
  ⟨by decide, utf7_wire_canonical _ _ (by decide)⟩

end Neomutt
